import Mathlib

/-!
Shallow embedding of the Sierra VMD / RBT codec toolkit (FFmpeg fork):
the VMD video decoder (`libavcodec/vmdvideo.c`: `lz_unpack`, `rle_unpack`,
`vmd_decode`), the VMD video encoder (`process_colors`,
`vmdvideo_encode_frame`), the VMD container muxer
(`libavformat/vmdenc.c`: `vmd_write_trailer`) and the RBT LZS length
coder (`tools/subtitle-rbt.c`: `get_lzs_back_ref_length`,
`compress_window`).

Machine bytes are modelled as `Nat` reduced mod 256 at each read, the
32-bit `dataleft` counter of the LZ unpacker as a `Nat` with explicit
wrap at 2^32, byte streams as a list plus a cursor (mirroring FFmpeg's
`GetByteContext`), and the output pixel plane as a list of write events
`(index, value)` so that theorems can speak about every byte the decoder
stores.  Loops whose C counterparts advance a cursor by at least one
byte (or one column) per iteration take an explicit fuel argument that
top-level entry points instantiate with more than the iteration bound,
so fuel exhaustion is unreachable from the exported definitions.
-/

namespace VmdSpec

/-- Write events: `mkWrites base bs` stores the bytes `bs` at consecutive
destination positions starting at `base`. -/
def mkWrites (base : Nat) : List Nat → List (Nat × Nat)
  | [] => []
  | b :: bs => (base, b) :: mkWrites (base + 1) bs

/-- Bounded byte-stream cursor, modelling FFmpeg's `GetByteContext`:
a buffer plus a read index. -/
structure GB where
  data : List Nat
  pos : Nat
deriving Repr, DecidableEq

/-- Remaining bytes, `bytestream2_get_bytes_left`. -/
def gbLeft (g : GB) : Nat := g.data.length - g.pos

/-- Checked byte read, `bytestream2_get_byte`: past the end it yields 0
and does not advance. -/
def gbGetByte (g : GB) : Nat × GB :=
  if g.pos < g.data.length then (g.data.getD g.pos 0 % 256, ⟨g.data, g.pos + 1⟩)
  else (0, g)

/-- Checked byte peek, `bytestream2_peek_byte`. -/
def gbPeekByte (g : GB) : Nat :=
  if g.pos < g.data.length then g.data.getD g.pos 0 % 256 else 0

/-- Cursor skip, `bytestream2_skip`, clamped at the end of the buffer. -/
def gbSkip (g : GB) (n : Nat) : GB := ⟨g.data, min (g.pos + n) g.data.length⟩

/-- Bounded buffer copy, `bytestream2_get_buffer`: copies
`min n (bytes left)` bytes and advances by that amount. -/
def gbGetBuffer (g : GB) (n : Nat) : List Nat × GB :=
  let k := min n (gbLeft g)
  (((g.data.drop g.pos).take k).map (fun b => b % 256), ⟨g.data, g.pos + k⟩)

/-- Checked little-endian 32-bit read, `bytestream2_get_le32`: with fewer
than 4 bytes left it yields 0 and moves the cursor to the end. -/
def gbGetLe32 (g : GB) : Nat × GB :=
  if 4 ≤ gbLeft g then
    (g.data.getD g.pos 0 % 256 + 256 * (g.data.getD (g.pos + 1) 0 % 256) +
       65536 * (g.data.getD (g.pos + 2) 0 % 256) +
       16777216 * (g.data.getD (g.pos + 3) 0 % 256),
     ⟨g.data, g.pos + 4⟩)
  else (0, ⟨g.data, g.data.length⟩)

/-- Checked little-endian 32-bit peek, `bytestream2_peek_le32`. -/
def gbPeekLe32 (g : GB) : Nat :=
  if 4 ≤ gbLeft g then
    g.data.getD g.pos 0 % 256 + 256 * (g.data.getD (g.pos + 1) 0 % 256) +
      65536 * (g.data.getD (g.pos + 2) 0 % 256) +
      16777216 * (g.data.getD (g.pos + 3) 0 % 256)
  else 0

/-- Little-endian 16-bit read from a raw byte list, `AV_RL16`. -/
def rl16 (b : List Nat) (i : Nat) : Nat :=
  b.getD i 0 % 256 + 256 * (b.getD (i + 1) 0 % 256)

/-- Little-endian 32-bit read from a raw byte list, `AV_RL32`. -/
def rl32 (b : List Nat) (i : Nat) : Nat :=
  b.getD i 0 % 256 + 256 * (b.getD (i + 1) 0 % 256) +
    65536 * (b.getD (i + 2) 0 % 256) + 16777216 * (b.getD (i + 3) 0 % 256)

/-- Result of `rle_unpack`: the return value (`bytestream2_tell`, the
number of source bytes consumed) and the write events into `dest`
(positions are relative to `dest`). -/
structure RleRes where
  ret : Nat
  writes : List (Nat × Nat)
deriving Repr, DecidableEq

/-- Write events of the run branch of `rle_unpack`: the 16-bit run value
(memory bytes `r0`, `r1`) stored `n` times, two bytes per store. -/
def mkRunWrites (base r0 r1 : Nat) : Nat → List (Nat × Nat)
  | 0 => []
  | n + 1 => (base, r0) :: (base + 1, r1) :: mkRunWrites (base + 2) r0 r1 n

/-- Main do-while loop of `rle_unpack`.  Pointer-difference checks
`dest_end - pd < k` are rendered as `destLen < pd + k` (the exact
integer meaning).  Each iteration consumes at least the one length byte,
so fuel `gbLeft g + 1` never runs out. -/
def rleLoop (destLen srcCount : Nat) : Nat → GB → Nat → Nat → List (Nat × Nat) → RleRes
  | 0, g, _, _, ws => ⟨g.pos, ws⟩
  | fuel + 1, g, pd, used, ws =>
    if gbLeft g < 1 then ⟨g.pos, ws⟩
    else
      let l0 := (gbGetByte g).1
      let g1 := (gbGetByte g).2
      if l0 &&& 0x80 ≠ 0 then
        let l := (l0 &&& 0x7F) * 2
        if destLen < pd + l ∨ gbLeft g1 < l then ⟨g1.pos, ws⟩
        else
          let bs := (gbGetBuffer g1 l).1
          let g2 := (gbGetBuffer g1 l).2
          let ws2 := ws ++ mkWrites pd bs
          if used + l < srcCount then rleLoop destLen srcCount fuel g2 (pd + l) (used + l) ws2
          else ⟨g2.pos, ws2⟩
      else
        let l := l0
        if destLen < pd + 2 * l ∨ gbLeft g1 < 2 then ⟨g1.pos, ws⟩
        else
          let r0 := (gbGetByte g1).1
          let g2 := (gbGetByte g1).2
          let r1 := (gbGetByte g2).1
          let g3 := (gbGetByte g2).2
          let ws2 := ws ++ mkRunWrites pd r0 r1 l
          if used + 2 * l < srcCount then rleLoop destLen srcCount fuel g3 (pd + 2 * l) (used + 2 * l) ws2
          else ⟨g3.pos, ws2⟩

/-- `rle_unpack(src, dest, src_count, src_size, dest_len)`: the inner RLE
coder of VMD method 3.  If `src_count` is odd one initial raw byte is
emitted (with no destination bound check, faithfully to the source),
then pair-encoded chunks follow until `src_count` bytes have been
produced or the input ends. -/
def rleUnpack (src : List Nat) (srcCount srcSize destLen : Nat) : RleRes :=
  let g : GB := ⟨src.take srcSize, 0⟩
  if srcCount % 2 = 1 then
    if gbLeft g < 1 then ⟨0, []⟩
    else
      let b := (gbGetByte g).1
      let g1 := (gbGetByte g).2
      rleLoop destLen srcCount (gbLeft g1 + 1) g1 1 1 [(0, b)]
  else rleLoop destLen srcCount (gbLeft g + 1) g 0 0 []

/-- Result of `lz_unpack`: error flag, bytes produced (the C function
returns `d - dest = out.length` on success), the final value of the
32-bit `dataleft` counter, and whether `dataleft` ever wrapped below
zero (instrumentation; the C counter is an unsigned that silently
wraps). -/
structure LzRes where
  err : Bool
  out : List Nat
  dl : Nat
  uf : Bool
deriving Repr, DecidableEq

/-- Mutable state of the `lz_unpack` main loop: input cursor, the
4096-byte circular queue with its insert position, the `dataleft`
counter, output produced so far, underflow instrumentation. -/
structure LzSt where
  g : GB
  q : Nat → Nat
  qpos : Nat
  dl : Nat
  out : List Nat
  uf : Bool

/-- Append one literal byte to the LZ output and insert it in the
circular queue (`queue[qpos++] = *d++ = byte; qpos &= 0xFFF`). -/
def lzPut (st : LzSt) (b : Nat) : LzSt :=
  { st with out := st.out ++ [b],
            q := fun j => if j = st.qpos then b else st.q j,
            qpos := (st.qpos + 1) % 4096 }

/-- Back-reference copy of `lz_unpack`: `n` bytes read from the queue at
`chainofs++ & 0xFFF` and re-inserted at `qpos`, sequentially (so a copy
may read bytes it has just written). -/
def lzChainCopy : Nat → Nat → LzSt → LzSt
  | 0, _, st => st
  | n + 1, chainofs, st =>
    let b := st.q (chainofs % 4096)
    lzChainCopy n (chainofs + 1) (lzPut st b)

/-- Decrement of the unsigned 32-bit `dataleft` counter by `k`,
flagging wrap-around. -/
def lzDec (dl k : Nat) : Nat × Bool :=
  if k ≤ dl then (dl - k, false) else ((dl + 4294967296 - k) % 4294967296, true)

/-- The 8-bit tag loop of `lz_unpack` (`for (i = 0; i < 8; i++)`):
LSB-first tag bits select literal copies or 2-byte back-references;
the loop breaks early when `dataleft` hits zero.  Returns the state and
an error flag. -/
def lzTagBits (destLen speclen : Nat) : Nat → Nat → LzSt → LzSt × Bool
  | 0, _, st => (st, false)
  | i + 1, tag, st =>
    if st.dl = 0 then (st, false)
    else if tag &&& 1 = 1 then
      if destLen < st.out.length + 1 ∨ gbLeft st.g < 1 then (st, true)
      else
        let b := (gbGetByte st.g).1
        let g := (gbGetByte st.g).2
        let st1 := lzPut { st with g := g } b
        lzTagBits destLen speclen i (tag >>> 1)
          { st1 with dl := (lzDec st1.dl 1).1, uf := st1.uf || (lzDec st1.dl 1).2 }
    else
      let b0 := (gbGetByte st.g).1
      let ga := (gbGetByte st.g).2
      let p := gbPeekByte ga
      let chainofs := b0 + ((p &&& 0xF0) <<< 4)
      let b1 := (gbGetByte ga).1
      let gb' := (gbGetByte ga).2
      let cl0 := (b1 &&& 0x0F) + 3
      let chainlen := if cl0 = speclen then (gbGetByte gb').1 + 0xF + 3 else cl0
      let gc := if cl0 = speclen then (gbGetByte gb').2 else gb'
      if destLen < st.out.length + chainlen then ({ st with g := gc }, true)
      else
        let st1 := lzChainCopy chainlen chainofs { st with g := gc }
        lzTagBits destLen speclen i (tag >>> 1)
          { st1 with dl := (lzDec st1.dl chainlen).1, uf := st1.uf || (lzDec st1.dl chainlen).2 }

/-- Main loop of `lz_unpack` (`while (dataleft > 0 && bytes left > 0)`).
Each iteration consumes at least the tag byte, so fuel
`gbLeft g + 1` never runs out. -/
def lzLoop (destLen speclen : Nat) : Nat → LzSt → LzRes
  | 0, st => ⟨true, st.out, st.dl, st.uf⟩
  | fuel + 1, st =>
    if st.dl = 0 ∨ gbLeft st.g = 0 then ⟨false, st.out, st.dl, st.uf⟩
    else
      let tag := (gbGetByte st.g).1
      let st0 : LzSt := { st with g := (gbGetByte st.g).2 }
      if tag = 0xFF ∧ 8 < st0.dl then
        if destLen < st0.out.length + 8 ∨ gbLeft st0.g < 8 then ⟨true, st0.out, st0.dl, st0.uf⟩
        else
          let bs := (gbGetBuffer st0.g 8).1
          let st1 := bs.foldl lzPut { st0 with g := (gbGetBuffer st0.g 8).2 }
          lzLoop destLen speclen fuel
            { st1 with dl := (lzDec st1.dl 8).1, uf := st1.uf || (lzDec st1.dl 8).2 }
      else
        let r := lzTagBits destLen speclen 8 tag st0
        if r.2 then ⟨true, r.1.out, r.1.dl, r.1.uf⟩
        else lzLoop destLen speclen fuel r.1

/-- `lz_unpack(src, src_len, dest, dest_len)`: the outer LZ decompressor
of VMD video.  Reads the LE32 `dataleft` counter, optionally consumes
the sentinel `0x56781234` (read little-endian from the next four bytes)
selecting `qpos`/`speclen`, then runs the main loop over a 4096-byte
queue pre-filled with 0x20. -/
def lzUnpack (src : List Nat) (destLen : Nat) : LzRes :=
  let g0 : GB := ⟨src, 0⟩
  let n := (gbGetLe32 g0).1
  let g1 := (gbGetLe32 g0).2
  if gbLeft g1 < 4 then ⟨true, [], n, false⟩
  else if gbPeekLe32 g1 = 0x56781234 then
    -- sentinel present: skip it, qpos = 0x111, speclen = 0xF + 3 = 18
    lzLoop destLen 18 (gbLeft (gbSkip g1 4) + 1) ⟨gbSkip g1 4, fun _ => 0x20, 0x111, n, [], false⟩
  else
    -- qpos = 0xFEE, speclen = 100 (disabled)
    lzLoop destLen 100 (gbLeft g1 + 1) ⟨g1, fun _ => 0x20, 0xFEE, n, [], false⟩

/-- One palette component as stored by the decoder
(`r = bytestream2_get_byteu(&gb) * 4`, an unsigned char, so the product
is truncated mod 256). -/
def vmdPalComp (v : Nat) : Nat := v * 4 % 256

/-- One 32-bit palette entry as computed by the decoder (both in
`vmdvideo_decode_init` and in `vmd_decode`'s palette-delta parser):
`palette32[i] = 0xFF << 24 | r << 16 | g << 8 | b` followed by
`palette32[i] |= palette32[i] >> 6 & 0x30303`. -/
def vmdPalEntry (r g b : Nat) : Nat :=
  let p := 0xFF <<< 24 ||| (vmdPalComp r <<< 16) ||| (vmdPalComp g <<< 8) ||| vmdPalComp b
  p ||| ((p >>> 6) &&& 0x30303)

/-- Modelled from the spec: the claimed per-component scaling map
`v' = (v << 2) | (v >> 4)`, to be compared with the decoder's
computation. -/
def specScale (v : Nat) : Nat := (v <<< 2) ||| (v >>> 4)

/-- Spec §8 scenario 1 input as written in the specification: `dataleft = 8`,
then the four bytes 0x56 0x78 0x12 0x34, then tag 0xFF and eight literals. -/
def c7orig : List Nat :=
  [0x08, 0, 0, 0, 0x56, 0x78, 0x12, 0x34, 0xFF, 65, 66, 67, 68, 69, 70, 71, 72]

/-- The same stream with the sentinel stored in the byte order the code
actually recognises (`bytestream2_peek_le32 == 0x56781234`). -/
def c7fixed : List Nat :=
  [0x08, 0, 0, 0, 0x34, 0x12, 0x78, 0x56, 0xFF, 65, 66, 67, 68, 69, 70, 71, 72]

/-- A short LZ stream whose counter says 8 but whose input ends right
after the sentinel: the main loop never runs. -/
def c2short : List Nat := [0x08, 0, 0, 0, 0x34, 0x12, 0x78, 0x56]

/-- The low `n` bits of `v`, most significant first: the bits appended
to the stream by `put_bits(pb, v, n)` in subtitle-rbt.c. -/
def toBits : Nat → Nat → List Bool
  | 0, _ => []
  | n + 1, v => toBits n (v >>> 1) ++ [v &&& 1 == 1]

/-- Value of a bit string, most significant bit first. -/
def bitsVal : List Bool → Nat
  | [] => 0
  | b :: bs => (if b then 1 else 0) * 2 ^ bs.length + bitsVal bs

/-- The first `n` bits of the stream, padded with zero bits past the end
of the stream (the C bit reader's accumulator holds zeros once the byte
stream is exhausted). -/
def takePad (s : List Bool) (n : Nat) : List Bool :=
  s.take n ++ List.replicate (n - s.length) false

/-- `view_bits(gb, n)`: the value of the next `n` bits, not consumed. -/
def viewBits (s : List Bool) (n : Nat) : Nat := bitsVal (takePad s n)

/-- The 16-entry `lzs_vlc_table`: 4-bit code → (code length, value). -/
def lzsVlcTable (vlc : Nat) : Nat × Nat :=
  if vlc < 4 then (2, 2)
  else if vlc < 8 then (2, 3)
  else if vlc < 12 then (2, 4)
  else if vlc = 12 then (4, 5)
  else if vlc = 13 then (4, 6)
  else if vlc = 14 then (4, 7)
  else (4, 8)

/-- The escape loop of `get_lzs_back_ref_length`
(`while (vlc == 0xF) { vlc = read_bits(gb, 4); value += vlc; }`),
entered with `vlc = 0xF`.  Returns (value, bits consumed by the loop).
Each pass consumes four bits of the stream, so the fuel
(`s.length + 1` at the call site) never runs out; the fuel-exhaustion
arm coincides with the loop-exit arm. -/
def lzsGroupLoopF : Nat → List Bool → Nat → Nat × Nat
  | 0, s, value => (value + viewBits s 4, 4)
  | fuel + 1, s, value =>
    let g := viewBits s 4
    if g = 15 then
      let r := lzsGroupLoopF fuel (s.drop 4) (value + g)
      (r.1, r.2 + 4)
    else (value + g, 4)

/-- `get_lzs_back_ref_length`: view a 4-bit code, look it up, consume
its code length; on the escape value 8 keep adding 4-bit groups while
they read 0xF.  Returns (decoded length, total bits consumed). -/
def getLzsBackRefLength (s : List Bool) : Nat × Nat :=
  let vlc := viewBits s 4
  let cv := lzsVlcTable vlc
  let s2 := s.drop cv.1
  if cv.2 = 8 then
    let r := lzsGroupLoopF (s2.length + 1) s2 8
    (r.1, cv.1 + r.2)
  else (cv.2, cv.1)

/-- The `while (run_size > 0)` group emitter of `compress_window` for
lengths ≥ 8: emit 0xF groups while 15 or more remain, then the final
group.  Each pass removes at least one from `r`, so fuel `r` suffices. -/
def encodeGroupsF : Nat → Nat → List Bool
  | 0, _ => []
  | fuel + 1, r =>
    if r = 0 then []
    else if 15 ≤ r then toBits 4 0xF ++ encodeGroupsF fuel (r - 15)
    else toBits 4 r

/-- Group emission for a residual length `r = run_size - 8`. -/
def encodeGroups (r : Nat) : List Bool := encodeGroupsF r r

/-- The back-reference length coder of `compress_window`: lengths 2–4
as a 2-bit value `run-2`, 5–7 as a 4-bit value `run+7`, otherwise a
4-bit 0xF escape followed by groups for `run - 8`. -/
def encodeLen (L : Nat) : List Bool :=
  if L ≤ 4 then toBits 2 (L - 2)
  else if L ≤ 7 then toBits 4 (L + 7)
  else toBits 4 0xF ++ encodeGroups (L - 8)

/-- An exact LZ stream: counter 2, no sentinel, one tag byte 0x03
selecting two literals. -/
def c2exact : List Nat := [2, 0, 0, 0, 3, 65, 66, 0]

/-- Decoder context fields of `VmdVideoContext` used by `vmd_decode`:
image size (`avctx->width/height`), the sticky rectangle offsets
`x_off`/`y_off`, the previous frame plane (flat, one byte per pixel,
`linesize = width`; `none` when `prev_frame->data[0]` is NULL), and
`unpack_buffer_size`. -/
structure DecCtx where
  w : Nat
  h : Nat
  xOff : Nat
  yOff : Nat
  prev : Option (List Nat)
  unpackBufferSize : Nat
deriving Repr, DecidableEq

/-- Coordinate parsing, offset adoption and rectangle validation of
`vmd_decode` (vmdvideo.c lines 201-232): `frame_x`/`frame_y` from bytes
6/8, width and height from the inclusive right/bottom corners at bytes
10/12; the offsets are adopted when a full-size frame sits at a nonzero
corner; the horizontal and vertical range checks reject any rectangle
not inside `width x height`.  The arithmetic is over C `int`, hence
`Int` here.  Returns the validated rectangle `(x, y, w, h)`. -/
def vmdRect (c : DecCtx) (buf : List Nat) : Option (Nat × Nat × Nat × Nat) :=
  let fx0 : Int := rl16 buf 6
  let fy0 : Int := rl16 buf 8
  let fwI : Int := rl16 buf 10 - fx0 + 1
  let fhI : Int := rl16 buf 12 - fy0 + 1
  let adopt := (fwI = (c.w : Int) ∧ fhI = (c.h : Int)) ∧ (fx0 ≠ 0 ∨ fy0 ≠ 0)
  let xo : Int := if adopt then fx0 else c.xOff
  let yo : Int := if adopt then fy0 else c.yOff
  let fx := fx0 - xo
  let fy := fy0 - yo
  if fx < 0 ∨ fwI < 0 ∨ fx ≥ (c.w : Int) ∨ fwI > (c.w : Int) ∨ fx + fwI > (c.w : Int) then
    none
  else if fy < 0 ∨ fhI < 0 ∨ fy ≥ (c.h : Int) ∨ fhI > (c.h : Int) ∨ fy + fhI > (c.h : Int) then
    none
  else
    some (fx.toNat, fy.toNat, fwI.toNat, fhI.toNat)

/-- The whole-plane interframe copy of lines 236-242: when a previous
frame exists and the update rectangle is not the full frame, the entire
previous plane (`height * linesize` bytes) is copied into the output
plane before decoding. -/
def prevCopy (c : DecCtx) (fx fy fw fh : Nat) : List (Nat × Nat) :=
  if c.prev.isNone then []
  else if fx ≠ 0 ∨ fy ≠ 0 ∨ fw ≠ c.w ∨ fh ≠ c.h then
    mkWrites 0 ((List.range (c.h * c.w)).map (fun j => (c.prev.getD []).getD j 0))
  else []

/-- Result of one row loop of methods 1-3: final input cursor,
accumulated plane write events, success flag, and the instrumentation
flag `req` marking that an interframe pixel copy was requested while
the decoder held no previous frame. -/
structure RowRes where
  g : GB
  writes : List (Nat × Nat)
  ok : Bool
  req : Bool
deriving Repr, DecidableEq

/-- One row of method 1 (lines 289-316): the `do { } while (ofs <
frame_width)` opcode loop.  `base` is the plane index of `dp` for this
row (`pp` shares it, the planes having equal linesize).  Raw runs are
bound-checked against both the row width and the input; interframe
copies are bound-checked and require a previous frame.  Every
iteration advances `ofs` by at least one, so fuel `fw + 1` never runs
out. -/
def m1Row (fw : Nat) (prev : Option (List Nat)) (base : Nat) :
    Nat → GB → Nat → List (Nat × Nat) → RowRes
  | 0, g, _, acc => ⟨g, acc, false, false⟩
  | fuel + 1, g, ofs, acc =>
    let len := (gbGetByte g).1
    let g1 := (gbGetByte g).2
    if len &&& 0x80 ≠ 0 then
      let l := (len &&& 0x7F) + 1
      if fw < ofs + l ∨ gbLeft g1 < l then ⟨g1, acc, false, false⟩
      else
        let bs := (gbGetBuffer g1 l).1
        let g2 := (gbGetBuffer g1 l).2
        let acc2 := acc ++ mkWrites (base + ofs) bs
        if ofs + l < fw then m1Row fw prev base fuel g2 (ofs + l) acc2
        else if fw < ofs + l then ⟨g2, acc2, false, false⟩
        else ⟨g2, acc2, true, false⟩
    else
      if prev.isNone then ⟨g1, acc, false, true⟩
      else
        if fw < ofs + len + 1 then ⟨g1, acc, false, false⟩
        else
          let acc2 := acc ++ mkWrites (base + ofs)
            ((List.range (len + 1)).map (fun j => (prev.getD []).getD (base + ofs + j) 0))
          if ofs + len + 1 < fw then m1Row fw prev base fuel g1 (ofs + len + 1) acc2
          else if fw < ofs + len + 1 then ⟨g1, acc2, false, false⟩
          else ⟨g1, acc2, true, false⟩

/-- All rows of method 1; `base` advances by one linesize (= width) per
row, and a row error aborts the remaining rows. -/
def m1Rows (fw : Nat) (prev : Option (List Nat)) (w : Nat) :
    Nat → Nat → GB → List (Nat × Nat) → RowRes
  | 0, _, g, acc => ⟨g, acc, true, false⟩
  | n + 1, base, g, acc =>
    let r := m1Row fw prev base (fw + 1) g 0 acc
    if r.ok then m1Rows fw prev w n (base + w) r.g r.writes else r

/-- Method 2 (lines 319-325): `frame_width` raw bytes per row via the
checked `bytestream2_get_buffer`, which copies at most the bytes left
and never fails. -/
def m2Rows (fw w : Nat) : Nat → Nat → GB → List (Nat × Nat) → RowRes
  | 0, _, g, acc => ⟨g, acc, true, false⟩
  | n + 1, base, g, acc =>
    m2Rows fw w n (base + w) (gbGetBuffer g fw).2 (acc ++ mkWrites base (gbGetBuffer g fw).1)

/-- One row of method 3 (lines 328-365): like method 1 but a raw run
whose next input byte is 0xFF is RLE-encoded: `rle_unpack` writes from
`dp[ofs]` with destination bound `frame_width - ofs`, the row offset
advances by the nominal run length and the input cursor by the return
value, with no row-width check until the post-loop `ofs >
frame_width` test. -/
def m3Row (fw : Nat) (prev : Option (List Nat)) (base : Nat) :
    Nat → GB → Nat → List (Nat × Nat) → RowRes
  | 0, g, _, acc => ⟨g, acc, false, false⟩
  | fuel + 1, g, ofs, acc =>
    let len := (gbGetByte g).1
    let g1 := (gbGetByte g).2
    if len &&& 0x80 ≠ 0 then
      let l := (len &&& 0x7F) + 1
      if gbPeekByte g1 = 0xFF then
        let g2 := (gbGetByte g1).2
        let rr := rleUnpack (g2.data.drop g2.pos) l (gbLeft g2) (fw - ofs)
        let acc2 := acc ++ rr.writes.map (fun q => (base + ofs + q.1, q.2))
        let g3 := gbSkip g2 rr.ret
        if ofs + l < fw then m3Row fw prev base fuel g3 (ofs + l) acc2
        else if fw < ofs + l then ⟨g3, acc2, false, false⟩
        else ⟨g3, acc2, true, false⟩
      else
        if fw < ofs + l ∨ gbLeft g1 < l then ⟨g1, acc, false, false⟩
        else
          let acc2 := acc ++ mkWrites (base + ofs) (gbGetBuffer g1 l).1
          if ofs + l < fw then m3Row fw prev base fuel (gbGetBuffer g1 l).2 (ofs + l) acc2
          else if fw < ofs + l then ⟨(gbGetBuffer g1 l).2, acc2, false, false⟩
          else ⟨(gbGetBuffer g1 l).2, acc2, true, false⟩
    else
      if prev.isNone then ⟨g1, acc, false, true⟩
      else
        if fw < ofs + len + 1 then ⟨g1, acc, false, false⟩
        else
          let acc2 := acc ++ mkWrites (base + ofs)
            ((List.range (len + 1)).map (fun j => (prev.getD []).getD (base + ofs + j) 0))
          if ofs + len + 1 < fw then m3Row fw prev base fuel g1 (ofs + len + 1) acc2
          else if fw < ofs + len + 1 then ⟨g1, acc2, false, false⟩
          else ⟨g1, acc2, true, false⟩

/-- All rows of method 3. -/
def m3Rows (fw : Nat) (prev : Option (List Nat)) (w : Nat) :
    Nat → Nat → GB → List (Nat × Nat) → RowRes
  | 0, _, g, acc => ⟨g, acc, true, false⟩
  | n + 1, base, g, acc =>
    let r := m3Row fw prev base (fw + 1) g 0 acc
    if r.ok then m3Rows fw prev w n (base + w) r.g r.writes else r

/-- Result of `vmd_decode`: plane write events, success flag, and the
instrumentation flag (an interframe copy was requested with no
previous frame). -/
structure DecRes where
  writes : List (Nat × Nat)
  ok : Bool
  req : Bool
deriving Repr, DecidableEq

/-- Repackage a row-loop result as the decode result. -/
def rowToDec (r : RowRes) : DecRes := ⟨r.writes, r.ok, r.req⟩

/-- The method dispatch of lines 285-367: `dp` starts at plane index
`frame_y * linesize + frame_x`; methods other than 1, 2, 3 fall
through the `switch` and return success. -/
def vmdMeth (c : DecCtx) (meth fx fy fw fh : Nat)
    (w0 : List (Nat × Nat)) (g : GB) : DecRes :=
  if meth = 1 then rowToDec (m1Rows fw c.prev c.w fh (fy * c.w + fx) g w0)
  else if meth = 2 then rowToDec (m2Rows fw c.w fh (fy * c.w + fx) g w0)
  else if meth = 3 then rowToDec (m3Rows fw c.prev c.w fh (fy * c.w + fx) g w0)
  else ⟨w0, true, false⟩

/-- Lines 263-283: the zero-size early success, the method byte read,
and the optional LZ unpacking of the frame payload into
`unpack_buffer` (which then becomes the input stream); an LZ-marked
frame with no LZ buffer, or a failing `lz_unpack`, is invalid data. -/
def vmdBody (c : DecCtx) (buf : List Nat) (fx fy fw fh : Nat)
    (w0 : List (Nat × Nat)) (g : GB) : DecRes :=
  if buf.length = 0 then ⟨w0, true, false⟩
  else if gbLeft g < 1 then ⟨w0, false, false⟩
  else if (gbGetByte g).1 &&& 0x80 ≠ 0 then
    if c.unpackBufferSize = 0 then ⟨w0, false, false⟩
    else if (lzUnpack ((gbGetByte g).2.data.drop (gbGetByte g).2.pos) c.unpackBufferSize).err then
      ⟨w0, false, false⟩
    else
      vmdMeth c ((gbGetByte g).1 &&& 0x7F) fx fy fw fh w0
        ⟨(lzUnpack ((gbGetByte g).2.data.drop (gbGetByte g).2.pos) c.unpackBufferSize).out, 0⟩
  else vmdMeth c (gbGetByte g).1 fx fy fw fh w0 (gbGetByte g).2

/-- `vmd_decode`: rectangle validation, the conditional whole-plane
copy of the previous frame, the palette-chunk handling of lines
244-261 (`buf[15] & 0x02`: skip 2 bytes, then 768 palette bytes must
be present, else invalid data after the plane copy already happened),
then the frame payload. -/
def vmdDecode (c : DecCtx) (buf : List Nat) : DecRes :=
  match vmdRect c buf with
  | none => ⟨[], false, false⟩
  | some (fx, fy, fw, fh) =>
    if buf.getD 15 0 % 256 &&& 0x02 ≠ 0 then
      if 768 ≤ gbLeft (gbSkip (⟨buf.drop 16, 0⟩ : GB) 2) then
        vmdBody c buf fx fy fw fh (prevCopy c fx fy fw fh)
          (gbSkip (gbSkip (⟨buf.drop 16, 0⟩ : GB) 2) 768)
      else ⟨prevCopy c fx fy fw fh, false, false⟩
    else vmdBody c buf fx fy fw fh (prevCopy c fx fy fw fh) (⟨buf.drop 16, 0⟩ : GB)

/-- `vmdvideo_decode_frame`: packets shorter than 16 bytes are
rejected before `vmd_decode` runs; on decode success the written frame
is produced, on failure no frame is output. -/
def vmdvideoDecodeFrame (c : DecCtx) (buf : List Nat) : Option (List (Nat × Nat)) :=
  if buf.length < 16 then none
  else if (vmdDecode c buf).ok then some ((vmdDecode c buf).writes) else none

/-- Membership of plane index `p` in the update rectangle
`(fx, fy, fw, fh)` of a plane of width `w`. -/
def inUpdateRect (w fx fy fw fh p : Nat) : Prop :=
  fx ≤ p % w ∧ p % w < fx + fw ∧ fy ≤ p / w ∧ p / w < fy + fh

instance inUpdateRectDec (w fx fy fw fh p : Nat) : Decidable (inUpdateRect w fx fy fw fh p) :=
  inferInstanceAs (Decidable (fx ≤ p % w ∧ p % w < fx + fw ∧ fy ≤ p / w ∧ p / w < fy + fh))

/-- C1 counterexample context: a 2×2 frame with a previous frame of
four bytes 9 and no LZ buffer. -/
def c1ctx : DecCtx := ⟨2, 2, 0, 0, some [9, 9, 9, 9], 0⟩

/-- C1 counterexample packet: a 1×1 update rectangle at (0,0), no
palette chunk, method 2, one raw pixel 7. -/
def c1buf : List Nat :=
  [0, 0, 0, 0, 0, 0, 0, 0, 0, 0, 0, 0, 0, 0, 0, 0, 2, 7]

/-- C4 witness context: 1×1 frame, no previous frame yet. -/
def c4ctx : DecCtx := ⟨1, 1, 0, 0, none, 0⟩

/-- C4 witness packet: method 1 whose first opcode byte 0x00 requests
an interframe copy of one pixel. -/
def c4buf : List Nat :=
  [0, 0, 0, 0, 0, 0, 0, 0, 0, 0, 0, 0, 0, 0, 0, 0, 1, 0]

/-- One palette map entry of the VMD video encoder (`PaletteEntry`):
the 24-bit quantized rgb key, the assigned palette index (a `uint8_t`,
stored modulo 256), and the three 6-bit components. -/
structure PalEntry where
  rgb : Nat
  index : Nat
  r : Nat
  g : Nat
  b : Nat
deriving Repr, DecidableEq

/-- Encoder palette state: the palette map entries in insertion order
(the AVTree holds them keyed by `rgb`), and `palette_count` (a C
`int`, unbounded here). -/
structure EncSt where
  pal : List PalEntry
  count : Nat
deriving Repr, DecidableEq

/-- `reset_palette`: empty the map, then insert reserved black with
index `palette_count++ = 0`. -/
def resetPalette : EncSt := ⟨[⟨0, 0, 0, 0, 0⟩], 1⟩

/-- A component quantized to 6 bits (`*pixel++ >> 2` on a byte). -/
def quant6 (v : Nat) : Nat := (v % 256) >>> 2

/-- The quantized rgb key of pixel `i` of a flat BGR24 frame, the
frame bytes given as a memory map (`b` at `3i`, `g` at `3i+1`, `r` at
`3i+2`): `(r << 16) | (g << 8) | b`. -/
def pixRgb (pict : Nat → Nat) (i : Nat) : Nat :=
  (quant6 (pict (3 * i + 2)) <<< 16) ||| (quant6 (pict (3 * i + 1)) <<< 8) |||
    quant6 (pict (3 * i))

/-- `av_tree_find` by rgb key. -/
def findRgb (pal : List PalEntry) (rgb : Nat) : Option PalEntry :=
  pal.find? (fun e => e.rgb == rgb)

/-- The pixel loop of `process_colors`: look each quantized color up,
appending a new entry with index `palette_count++` (truncated to
`uint8_t`) when absent, and emit the pixel's palette index into the
converted frame. -/
def procLoop (pict : Nat → Nat) : Nat → Nat → EncSt → List Nat → EncSt × List Nat
  | 0, _, st, out => (st, out)
  | rem + 1, i, st, out =>
    match findRgb st.pal (pixRgb pict i) with
    | some e => procLoop pict rem (i + 1) st (out ++ [e.index])
    | none =>
      procLoop pict rem (i + 1)
        ⟨st.pal ++ [⟨pixRgb pict i, st.count % 256, quant6 (pict (3 * i + 2)),
          quant6 (pict (3 * i + 1)), quant6 (pict (3 * i))⟩], st.count + 1⟩
        (out ++ [st.count % 256])

/-- `process_colors` over the `width * height` pixels of a flat BGR24
frame (`linesize = 3 * width`, rows contiguous). -/
def processColors (pict : Nat → Nat) (n : Nat) (st : EncSt) : EncSt × List Nat :=
  procLoop pict n 0 st []

/-- Ordered insertion by rgb key (the AVTree keeps entries ordered by
`palette_compare`, i.e. by `rgb`). -/
def palInsert (e : PalEntry) : List PalEntry → List PalEntry
  | [] => [e]
  | x :: xs => if e.rgb ≤ x.rgb then e :: x :: xs else x :: palInsert e xs

/-- The palette map in rgb order (`av_tree_enumerate` visits the tree
in key order). -/
def palSort : List PalEntry → List PalEntry
  | [] => []
  | x :: xs => palInsert x (palSort xs)

/-- `palette_enumerate` for one entry: store the three components at
offset `index * 3`. -/
def palPoke (acc : List Nat) (e : PalEntry) : List Nat :=
  ((acc.set (e.index * 3) e.r).set (e.index * 3 + 1) e.g).set (e.index * 3 + 2) e.b

/-- The 768-byte palette chunk: zeroed by `memset`, then every map
entry stored at its index, in rgb enumeration order. -/
def palDump (pal : List PalEntry) : List Nat :=
  (palSort pal).foldl palPoke (List.replicate 768 0)

/-- The ten side-data bytes written at lines 689-701: four zero bytes
(the top-left and top-right placeholders), `width - 1` and
`height - 1` as big-endian 16-bit values, the new-palette flag
(`initial_palette_count == 0`), and the count of new entries as a
`uint8_t`. -/
def encHeader (w h initial count : Nat) : List Nat :=
  [0, 0, 0, 0,
   ((w - 1) >>> 8) &&& 255, (w - 1) &&& 255,
   ((h - 1) >>> 8) &&& 255, (h - 1) &&& 255,
   if initial = 0 then 1 else 0,
   (count - initial) % 256]

/-- Result of `vmdvideo_encode_frame`: success flag, the palette state
after the frame, the emitted packet bytes, and whether the in-frame
palette reset happened. -/
structure EncRes where
  ok : Bool
  st : EncSt
  packet : List Nat
  resetOccurred : Bool
deriving Repr, DecidableEq

/-- `vmdvideo_encode_frame` on a flat BGR24 frame: convert via
`process_colors`; if the palette map overflowed 256 entries, reset it
once and re-process with `initial_palette_count = 0` — there is no
further overflow check.  Then emit the ten header bytes, the 768-byte
palette chunk (left as the allocated packet bytes `junk` when no new
entry was added this frame), the raw-method byte 2 and the converted
frame. -/
def vmdvideoEncodeFrame (w h : Nat) (pict : Nat → Nat) (st0 : EncSt)
    (junk : List Nat) : EncRes :=
  let p1 := processColors pict (w * h) st0
  if 256 < p1.1.count then
    let p2 := processColors pict (w * h) resetPalette
    ⟨true, p2.1, encHeader w h 0 p2.1.count ++ palDump p2.1.pal ++ [2] ++ p2.2, true⟩
  else
    ⟨true, p1.1,
      encHeader w h st0.count p1.1.count ++
        (if st0.count < p1.1.count then palDump p1.1.pal else junk) ++ [2] ++ p1.2,
      false⟩

/-- A 257-pixel single-row BGR24 frame whose pixels quantize to 257
distinct colors, none of them black. -/
def pict257 : Nat → Nat := fun j =>
  if j % 3 = 0 then (j / 3 + 1) % 64 * 4
  else if j % 3 = 1 then ((j / 3 + 1) / 64) % 64 * 4
  else 0

/-- The all-black frame. -/
def pictBlack : Nat → Nat := fun _ => 0

/-- The output byte stream of an `AVIOContext`: the file contents as a
total byte map plus the write position. -/
structure Avio where
  data : Nat → Nat
  pos : Nat

/-- `avio_w8`: store one byte at the current position and advance. -/
def avioW8 (s : Avio) (v : Nat) : Avio :=
  ⟨fun i => if i = s.pos then v % 256 else s.data i, s.pos + 1⟩

/-- `avio_wl16`: low byte first. -/
def avioWl16 (s : Avio) (v : Nat) : Avio := avioW8 (avioW8 s v) (v >>> 8)

/-- `avio_wl32`: low 16-bit word first. -/
def avioWl32 (s : Avio) (v : Nat) : Avio := avioWl16 (avioWl16 s v) (v >>> 16)

/-- `avio_seek(pb, p, SEEK_SET)`. -/
def avioSeek (s : Avio) (p : Nat) : Avio := ⟨s.data, p⟩

/-- The muxer fields used by `vmd_write_trailer`: the video size and
the frame table (offset and size per video frame). -/
structure MuxCtx where
  videoWidth : Nat
  videoHeight : Nat
  frameTable : List (Nat × Nat)

/-- The block-table loop of the trailer (lines 199-203): per frame a
2-byte unknown zero and the frame offset LE32. -/
def writeBlockTable (t : List (Nat × Nat)) (s : Avio) : Avio :=
  t.foldl (fun s2 e => avioWl32 (avioWl16 s2 0) e.1) s

/-- One 16-byte video frame record followed by one 16-byte audio
record of the trailer frame table (lines 208-224). -/
def writeFrameRecord (c : MuxCtx) (s : Avio) (e : Nat × Nat) : Avio :=
  let v := avioW8 (avioW8 (avioWl16 (avioWl16 (avioWl16 (avioWl16 (avioWl32
    (avioW8 (avioW8 s 2) 0) e.2) 0) 0) (c.videoWidth - 1)) (c.videoHeight - 1)) 0) 0
  avioWl32 (avioWl32 (avioW8 (avioW8 (avioWl32 (avioW8 (avioW8 v 1) 0) 0) 0) 0) 0) 0

/-- The frame-table loop of the trailer. -/
def writeFrameTable (c : MuxCtx) (t : List (Nat × Nat)) (s : Avio) : Avio :=
  t.foldl (writeFrameRecord c) s

/-- `vmd_write_trailer`: note the current offset as the ToC offset,
write the block table and the frame table, then patch the header: the
video frame count LE16 at offset 6 and the ToC offset LE32 at offset
812. -/
def vmdWriteTrailer (c : MuxCtx) (s : Avio) : Avio :=
  avioWl32
    (avioSeek
      (avioWl16
        (avioSeek (writeFrameTable c c.frameTable (writeBlockTable c.frameTable s)) 6)
        c.frameTable.length)
      812)
    s.pos

/-- C9 witness muxer state: 2×2 video, no frames yet. -/
def c9mux : MuxCtx := ⟨2, 2, []⟩

/-- C9 witness stream: a zero file at position 816, the first byte
after the 816-byte header. -/
def c9avio : Avio := ⟨fun _ => 0, 816⟩

end VmdSpec

namespace VmdSpec

/-! ### Helper lemmas -/

theorem mkWrites_length (base : Nat) (bs : List Nat) :
    (mkWrites base bs).length = bs.length := by
  induction bs generalizing base with
  | nil => rfl
  | cons b bs ih => simp [mkWrites, ih]

theorem mkWrites_mem {wv : Nat × Nat} {base : Nat} {bs : List Nat}
    (h : wv ∈ mkWrites base bs) : base ≤ wv.1 ∧ wv.1 < base + bs.length := by
  induction bs generalizing base with
  | nil => simp [mkWrites] at h
  | cons b bs ih =>
    simp only [mkWrites, List.mem_cons] at h
    rcases h with h | h
    · subst h; simp
    · have := @ih (base + 1) h
      simp only [List.length_cons]
      omega

theorem mkRunWrites_length (base r0 r1 : Nat) :
    ∀ n, (mkRunWrites base r0 r1 n).length = 2 * n := by
  intro n
  induction n generalizing base with
  | zero => rfl
  | succ n ih => simp [mkRunWrites, ih (base + 2)]; omega

theorem mkRunWrites_mem {wv : Nat × Nat} {base r0 r1 : Nat} :
    ∀ {n : Nat}, wv ∈ mkRunWrites base r0 r1 n → base ≤ wv.1 ∧ wv.1 < base + 2 * n := by
  intro n
  induction n generalizing base with
  | zero => intro h; simp [mkRunWrites] at h
  | succ n ih =>
    intro h
    simp only [mkRunWrites, List.mem_cons] at h
    rcases h with h | h | h
    · subst h; omega
    · subst h; omega
    · have := @ih (base + 2) h
      omega

theorem gbGetBuffer_len_le (g : GB) (n : Nat) : ((gbGetBuffer g n).1).length ≤ n := by
  simp only [gbGetBuffer, List.length_map, List.length_take]
  omega

theorem gbGetBuffer_len (g : GB) (n : Nat) (h : n ≤ gbLeft g) :
    ((gbGetBuffer g n).1).length = n := by
  simp only [gbGetBuffer, List.length_map, List.length_take, List.length_drop, gbLeft] at *
  omega

/-! ### C10: the inner RLE unpacker and its destination bound -/

theorem rleLoop_writes_lt (destLen srcCount B : Nat) (hB : destLen ≤ B) :
    ∀ fuel g pd used ws, (∀ wv ∈ ws, wv.1 < B) →
      ∀ wv ∈ (rleLoop destLen srcCount fuel g pd used ws).writes, wv.1 < B := by
  intro fuel
  induction fuel with
  | zero => intro g pd used ws hws wv hwv; exact hws wv hwv
  | succ fuel ih =>
    intro g pd used ws hws wv hwv
    simp only [rleLoop] at hwv
    have hl := gbGetBuffer_len_le (gbGetByte g).2 (((gbGetByte g).1 &&& 127) * 2)
    split_ifs at hwv with h1 h2 h3 h4 h5 h6 <;>
      first
      | exact hws wv hwv
      | · refine ih _ _ _ _ ?_ wv hwv
          intro xv hxv
          rcases List.mem_append.mp hxv with hx | hx
          · exact hws xv hx
          · first
            | (have hb := mkWrites_mem hx; omega)
            | (have hb := mkRunWrites_mem hx; omega)
      | · rcases List.mem_append.mp hwv with hx | hx
          · exact hws wv hx
          · first
            | (have hb := mkWrites_mem hx; omega)
            | (have hb := mkRunWrites_mem hx; omega)

theorem rleLoop_writes_length (destLen srcCount : Nat) :
    ∀ fuel g pd used ws, pd ≤ destLen →
      (rleLoop destLen srcCount fuel g pd used ws).writes.length ≤
        ws.length + (destLen - pd) := by
  intro fuel
  induction fuel with
  | zero => intro g pd used ws hpd; simp [rleLoop]
  | succ fuel ih =>
    intro g pd used ws hpd
    simp only [rleLoop]
    have hl := gbGetBuffer_len_le (gbGetByte g).2 (((gbGetByte g).1 &&& 127) * 2)
    split_ifs with h1 h2 h3 h4 h5 h6 <;>
      first
      | (simp only []; omega)
      | · refine le_trans (ih _ _ _ _ (by omega)) ?_
          simp only [List.length_append, mkWrites_length, mkRunWrites_length]
          omega
      | · simp only [List.length_append, mkWrites_length, mkRunWrites_length]
          omega

/-- All write positions of the inner RLE unpacker are below
`max destLen 1`: below `destLen` except for the one initial raw byte
(position 0) emitted when `src_count` is odd. -/
theorem rleUnpack_writes_lt_max (src : List Nat) (srcCount srcSize destLen : Nat) :
    ∀ wv ∈ (rleUnpack src srcCount srcSize destLen).writes, wv.1 < max destLen 1 := by
  intro wv hwv
  simp only [rleUnpack] at hwv
  split_ifs at hwv with h1 h2
  · simp at hwv
  · refine rleLoop_writes_lt destLen srcCount (max destLen 1) (le_max_left _ _)
      _ _ _ _ _ ?_ wv hwv
    intro xv hxv
    simp only [List.mem_singleton] at hxv
    subst hxv
    simp
  · exact rleLoop_writes_lt destLen srcCount (max destLen 1) (le_max_left _ _)
      _ _ _ _ _ (by intro xv hxv; simp at hxv) wv hwv

/-- C10 (amended): for every call with `dest_len ≥ 1` the inner RLE
unpacker writes at most `dest_len` bytes into `dest`; the unguarded
initial raw byte for odd `src_count` fits because `dest_len ≥ 1`. -/
theorem rle_unpack_writes_le_dest (src : List Nat) (srcCount srcSize destLen : Nat)
    (h : 1 ≤ destLen) :
    (rleUnpack src srcCount srcSize destLen).writes.length ≤ destLen := by
  simp only [rleUnpack]
  split_ifs with h1 h2
  · simp
  · refine le_trans (rleLoop_writes_length destLen srcCount _ _ 1 1 [(0, (gbGetByte ⟨src.take srcSize, 0⟩).1)] h) ?_
    simp only [List.length_singleton]
    omega
  · refine le_trans (rleLoop_writes_length destLen srcCount _ _ 0 0 [] (by omega)) ?_
    simp

/-- C10 counterexample: with `src = [65]`, `src_count = 1` (odd),
`src_size = 1` and `dest_len = 0`, `rle_unpack` still writes one byte
into `dest`, exceeding `dest_len`. -/
theorem rle_unpack_dest_zero_overflow :
    ¬ (rleUnpack [65] 1 1 0).writes.length ≤ 0 := by decide

/-- C10 witness: the amended bound applied at a concrete input
(`src_count = 4`, one run opcode, `dest_len = 4`). -/
theorem rle_unpack_writes_le_dest_witness :
    1 ≤ 4 ∧ (rleUnpack [2, 7, 8] 4 3 4).writes.length ≤ 4 :=
  ⟨by decide, rle_unpack_writes_le_dest [2, 7, 8] 4 3 4 (by decide)⟩

/-! ### C2 / C7: the LZ unpacker -/

theorem lzChainCopy_fields : ∀ (n co : Nat) (st : LzSt),
    (lzChainCopy n co st).out.length = st.out.length + n ∧
    (lzChainCopy n co st).dl = st.dl ∧ (lzChainCopy n co st).uf = st.uf ∧
    (lzChainCopy n co st).g = st.g := by
  intro n
  induction n with
  | zero => intro co st; exact ⟨by simp [lzChainCopy], rfl, rfl, rfl⟩
  | succ n ih =>
    intro co st
    have := ih (co + 1) (lzPut st (st.q (co % 4096)))
    simp only [lzChainCopy, lzPut] at this ⊢
    simp only [List.length_append, List.length_singleton] at this
    refine ⟨?_, this.2.1, this.2.2.1, this.2.2.2⟩
    omega

theorem foldl_lzPut_fields (bs : List Nat) : ∀ st : LzSt,
    (bs.foldl lzPut st).out.length = st.out.length + bs.length ∧
    (bs.foldl lzPut st).dl = st.dl ∧ (bs.foldl lzPut st).uf = st.uf := by
  induction bs with
  | nil => intro st; simp
  | cons b bs ih =>
    intro st
    rcases ih (lzPut st b) with ⟨h1, h2, h3⟩
    have e1 : (lzPut st b).out.length = st.out.length + 1 := by
      show (st.out ++ [b]).length = st.out.length + 1
      simp
    have e2 : (lzPut st b).dl = st.dl := rfl
    have e3 : (lzPut st b).uf = st.uf := rfl
    rw [e1] at h1
    rw [e2] at h2
    rw [e3] at h3
    refine ⟨?_, ?_, ?_⟩
    · rw [List.foldl_cons, h1, List.length_cons]
      omega
    · rw [List.foldl_cons, h2]
    · rw [List.foldl_cons, h3]

/-- Along any underflow-free run of the 8-bit tag loop, the bytes
produced exactly account for the decrease of `dataleft`. -/
theorem lzTagBits_sum (destLen speclen : Nat) : ∀ (i tag : Nat) (st : LzSt),
    (lzTagBits destLen speclen i tag st).1.uf = false →
    st.uf = false ∧
      (lzTagBits destLen speclen i tag st).1.out.length +
          (lzTagBits destLen speclen i tag st).1.dl
        = st.out.length + st.dl := by
  intro i
  induction i with
  | zero => intro tag st h; exact ⟨h, rfl⟩
  | succ i ih =>
    intro tag st h
    simp only [lzTagBits] at h ⊢
    by_cases h0 : st.dl = 0
    · rw [if_pos h0] at h ⊢; exact ⟨h, rfl⟩
    · rw [if_neg h0] at h ⊢
      by_cases h1 : tag &&& 1 = 1
      · rw [if_pos h1] at h ⊢
        by_cases h2 : destLen < st.out.length + 1 ∨ gbLeft st.g < 1
        · rw [if_pos h2] at h ⊢; exact ⟨h, rfl⟩
        · rw [if_neg h2] at h ⊢
          have hdl1 : 1 ≤ st.dl := by omega
          simp only [lzPut, lzDec, if_pos hdl1, Bool.or_false] at h ⊢
          rcases ih (tag >>> 1) _ h with ⟨hu, hsum⟩
          have hu2 : st.uf = false := hu
          refine ⟨hu2, ?_⟩
          rw [hsum]
          show (st.out ++ [(gbGetByte st.g).1]).length + (st.dl - 1) = st.out.length + st.dl
          rw [List.length_append, List.length_singleton]
          omega
      · rw [if_neg h1] at h ⊢
        generalize hC : (if ((gbGetByte (gbGetByte st.g).2).1 &&& 15) + 3 = speclen then
            (gbGetByte (gbGetByte (gbGetByte st.g).2).2).1 + 15 + 3
          else ((gbGetByte (gbGetByte st.g).2).1 &&& 15) + 3) = C at h ⊢
        generalize hG : (if ((gbGetByte (gbGetByte st.g).2).1 &&& 15) + 3 = speclen then
            (gbGetByte (gbGetByte (gbGetByte st.g).2).2).2
          else (gbGetByte (gbGetByte st.g).2).2) = G at h ⊢
        by_cases h2 : destLen < st.out.length + C
        · rw [if_pos h2] at h ⊢; exact ⟨h, rfl⟩
        · rw [if_neg h2] at h ⊢
          rcases lzChainCopy_fields C
            ((gbGetByte st.g).1 + ((gbPeekByte (gbGetByte st.g).2 &&& 240) <<< 4))
            { st with g := G } with ⟨hlen, hdl, hufq, -⟩
          set CC := lzChainCopy C
            ((gbGetByte st.g).1 + ((gbPeekByte (gbGetByte st.g).2 &&& 240) <<< 4))
            { st with g := G } with hCC
          have hlen2 : CC.out.length = st.out.length + C := hlen
          have hdl2 : CC.dl = st.dl := hdl
          have hufq2 : CC.uf = st.uf := hufq
          by_cases hle : C ≤ CC.dl
          · simp only [lzDec, if_pos hle, Bool.or_false] at h ⊢
            rcases ih (tag >>> 1) _ h with ⟨hu, hsum⟩
            have hu2 : CC.uf = false := hu
            refine ⟨hufq2 ▸ hu2, ?_⟩
            rw [hsum]
            show CC.out.length + (CC.dl - C) = st.out.length + st.dl
            omega
          · -- the counter underflows: the tag loop's result is flagged,
            -- contradicting the hypothesis
            exfalso
            simp only [lzDec, if_neg hle, Bool.or_true] at h
            rcases ih (tag >>> 1) _ h with ⟨hu, -⟩
            simp at hu

/-- Along any underflow-free run of the LZ main loop, the bytes
produced exactly account for the decrease of `dataleft`. -/
theorem lzLoop_sum (destLen speclen : Nat) : ∀ (fuel : Nat) (st : LzSt),
    (lzLoop destLen speclen fuel st).uf = false →
    st.uf = false ∧
      (lzLoop destLen speclen fuel st).out.length + (lzLoop destLen speclen fuel st).dl
        = st.out.length + st.dl := by
  intro fuel
  induction fuel with
  | zero => intro st h; exact ⟨h, rfl⟩
  | succ fuel ih =>
    intro st h
    simp only [lzLoop] at h ⊢
    by_cases h0 : st.dl = 0 ∨ gbLeft st.g = 0
    · rw [if_pos h0] at h ⊢; exact ⟨h, rfl⟩
    · rw [if_neg h0] at h ⊢
      by_cases h1 : (gbGetByte st.g).1 = 255 ∧ 8 < st.dl
      · rw [if_pos h1] at h ⊢
        by_cases h2 : destLen < st.out.length + 8 ∨ gbLeft (gbGetByte st.g).2 < 8
        · rw [if_pos h2] at h ⊢; exact ⟨h, rfl⟩
        · rw [if_neg h2] at h ⊢
          rcases foldl_lzPut_fields ((gbGetBuffer (gbGetByte st.g).2 8).1)
              { st with g := (gbGetBuffer (gbGetByte st.g).2 8).2 } with ⟨hlen, hdl, hufq⟩
          set FF := List.foldl lzPut { st with g := (gbGetBuffer (gbGetByte st.g).2 8).2 }
            ((gbGetBuffer (gbGetByte st.g).2 8).1) with hFF
          have hbs : ((gbGetBuffer (gbGetByte st.g).2 8).1).length = 8 := by
            refine gbGetBuffer_len _ _ ?_
            omega
          have hlen2 : FF.out.length = st.out.length + 8 := by rw [hlen, hbs]
          have hdl2 : FF.dl = st.dl := hdl
          have hufq2 : FF.uf = st.uf := hufq
          have hle : 8 ≤ FF.dl := by omega
          simp only [lzDec, if_pos hle, Bool.or_false] at h ⊢
          rcases ih _ h with ⟨hu, hsum⟩
          have hu2 : FF.uf = false := hu
          refine ⟨hufq2 ▸ hu2, ?_⟩
          rw [hsum]
          show FF.out.length + (FF.dl - 8) = st.out.length + st.dl
          omega
      · rw [if_neg h1] at h ⊢
        by_cases ht : (lzTagBits destLen speclen 8 (gbGetByte st.g).1
            { st with g := (gbGetByte st.g).2 }).2 = true
        · rw [if_pos ht] at h ⊢
          rcases lzTagBits_sum destLen speclen 8 (gbGetByte st.g).1
              { st with g := (gbGetByte st.g).2 } h with ⟨hu, hsum⟩
          simp only [] at hu hsum
          exact ⟨hu, hsum⟩
        · rw [if_neg ht] at h ⊢
          rcases ih _ h with ⟨hu2, hsum2⟩
          rcases lzTagBits_sum destLen speclen 8 (gbGetByte st.g).1
              { st with g := (gbGetByte st.g).2 } hu2 with ⟨hu, hsum⟩
          simp only [] at hu hsum
          refine ⟨hu, ?_⟩
          omega

/-- Branch equation: too few bytes after the counter. -/
theorem lzUnpack_eq_short (src : List Nat) (destLen : Nat)
    (h4 : gbLeft (gbGetLe32 (⟨src, 0⟩ : GB)).2 < 4) :
    lzUnpack src destLen = ⟨true, [], (gbGetLe32 (⟨src, 0⟩ : GB)).1, false⟩ := by
  simp only [lzUnpack]
  rw [if_pos h4]

/-- Branch equation: the sentinel `0x56781234` is present. -/
theorem lzUnpack_eq_sent (src : List Nat) (destLen : Nat)
    (h4 : ¬ gbLeft (gbGetLe32 (⟨src, 0⟩ : GB)).2 < 4)
    (hs : gbPeekLe32 (gbGetLe32 (⟨src, 0⟩ : GB)).2 = 0x56781234) :
    lzUnpack src destLen =
      lzLoop destLen 18 (gbLeft (gbSkip (gbGetLe32 (⟨src, 0⟩ : GB)).2 4) + 1)
        ⟨gbSkip (gbGetLe32 (⟨src, 0⟩ : GB)).2 4, fun _ => 0x20, 0x111,
          (gbGetLe32 (⟨src, 0⟩ : GB)).1, [], false⟩ := by
  simp only [lzUnpack]
  rw [if_neg h4, if_pos hs]

/-- Branch equation: no sentinel. -/
theorem lzUnpack_eq_nosent (src : List Nat) (destLen : Nat)
    (h4 : ¬ gbLeft (gbGetLe32 (⟨src, 0⟩ : GB)).2 < 4)
    (hs : ¬ gbPeekLe32 (gbGetLe32 (⟨src, 0⟩ : GB)).2 = 0x56781234) :
    lzUnpack src destLen =
      lzLoop destLen 100 (gbLeft (gbGetLe32 (⟨src, 0⟩ : GB)).2 + 1)
        ⟨(gbGetLe32 (⟨src, 0⟩ : GB)).2, fun _ => 0x20, 0xFEE,
          (gbGetLe32 (⟨src, 0⟩ : GB)).1, [], false⟩ := by
  simp only [lzUnpack]
  rw [if_neg h4, if_neg hs]

/-- With at least four bytes in the list the LE32 header read yields
`rl32 src 0`. -/
theorem gbGetLe32_val (src : List Nat) (hsl : 4 ≤ src.length) :
    (gbGetLe32 (⟨src, 0⟩ : GB)).1 = rl32 src 0 := by
  simp only [gbGetLe32, gbLeft]
  rw [if_pos (by omega)]
  rfl

/-- If the stream has at least four bytes left after the counter then
the whole list holds at least four bytes. -/
theorem lz_src_len (src : List Nat)
    (h4 : ¬ gbLeft (gbGetLe32 (⟨src, 0⟩ : GB)).2 < 4) : 4 ≤ src.length := by
  by_contra hc
  have he : gbGetLe32 (⟨src, 0⟩ : GB) = (0, ⟨src, src.length⟩) := by
    simp only [gbGetLe32, gbLeft]
    rw [if_neg (by omega)]
  rw [he] at h4
  simp [gbLeft] at h4

/-- C2 (amended): whenever `lz_unpack` finishes without error, the
32-bit `dataleft` counter never wraps below zero, and the counter is
driven exactly to zero, the number of bytes produced (the return value)
equals the stream's leading little-endian 32-bit counter `N`. -/
theorem lz_unpack_output_length (src : List Nat) (destLen : Nat)
    (herr : (lzUnpack src destLen).err = false)
    (huf : (lzUnpack src destLen).uf = false)
    (hdl : (lzUnpack src destLen).dl = 0) :
    (lzUnpack src destLen).out.length = rl32 src 0 := by
  by_cases h4 : gbLeft (gbGetLe32 (⟨src, 0⟩ : GB)).2 < 4
  · rw [lzUnpack_eq_short src destLen h4] at herr
    simp at herr
  · have hval := gbGetLe32_val src (lz_src_len src h4)
    by_cases hs : gbPeekLe32 (gbGetLe32 (⟨src, 0⟩ : GB)).2 = 0x56781234
    · rw [lzUnpack_eq_sent src destLen h4 hs] at huf hdl ⊢
      rcases lzLoop_sum destLen 18 _ _ huf with ⟨-, hsum⟩
      rw [hdl] at hsum
      simp only [List.length_nil] at hsum
      rw [hval] at hsum ⊢
      omega
    · rw [lzUnpack_eq_nosent src destLen h4 hs] at huf hdl ⊢
      rcases lzLoop_sum destLen 100 _ _ huf with ⟨-, hsum⟩
      rw [hdl] at hsum
      simp only [List.length_nil] at hsum
      rw [hval] at hsum ⊢
      omega

/-- C2 counterexample: a stream whose counter says 8 but which ends
immediately after the sentinel decodes without error yet returns 0
bytes, not 8 (no opcode ever demanded an input byte). -/
theorem lz_unpack_short_stream :
    (lzUnpack c2short 8).err = false ∧ rl32 c2short 0 = 8 ∧
      (lzUnpack c2short 8).out.length = 0 := by decide

/-- C2 witness: the amended statement applied to an exact two-literal
stream with counter 2. -/
theorem lz_unpack_output_length_witness :
    (lzUnpack c2exact 2).err = false ∧ (lzUnpack c2exact 2).uf = false ∧
      (lzUnpack c2exact 2).dl = 0 ∧ (lzUnpack c2exact 2).out.length = rl32 c2exact 0 :=
  ⟨by decide, by decide, by decide,
    lz_unpack_output_length c2exact 2 (by decide) (by decide) (by decide)⟩

/-- Raising `dest_len` cannot change an error-free run of the tag loop:
every destination-bound guard that passed still passes. -/
theorem lzTagBits_mono (speclen d d' : Nat) (hdd : d ≤ d') : ∀ (i tag : Nat) (st : LzSt),
    (lzTagBits d speclen i tag st).2 = false →
    lzTagBits d' speclen i tag st = lzTagBits d speclen i tag st := by
  intro i
  induction i with
  | zero => intro tag st _; rfl
  | succ i ih =>
    intro tag st h
    simp only [lzTagBits] at h ⊢
    by_cases h0 : st.dl = 0
    · simp only [if_pos h0]
    · simp only [if_neg h0] at h ⊢
      by_cases h1 : tag &&& 1 = 1
      · simp only [if_pos h1] at h ⊢
        by_cases h2 : d < st.out.length + 1 ∨ gbLeft st.g < 1
        · rw [if_pos h2] at h; simp at h
        · rw [if_neg h2] at h ⊢
          rw [if_neg (show ¬ (d' < st.out.length + 1 ∨ gbLeft st.g < 1) by omega)]
          exact ih _ _ h
      · simp only [if_neg h1] at h ⊢
        by_cases h2 : d < st.out.length +
            (if ((gbGetByte (gbGetByte st.g).2).1 &&& 15) + 3 = speclen then
              (gbGetByte (gbGetByte (gbGetByte st.g).2).2).1 + 15 + 3
             else ((gbGetByte (gbGetByte st.g).2).1 &&& 15) + 3)
        · rw [if_pos h2] at h; simp at h
        · rw [if_neg h2] at h ⊢
          rw [if_neg (show ¬ d' < st.out.length +
              (if ((gbGetByte (gbGetByte st.g).2).1 &&& 15) + 3 = speclen then
                (gbGetByte (gbGetByte (gbGetByte st.g).2).2).1 + 15 + 3
               else ((gbGetByte (gbGetByte st.g).2).1 &&& 15) + 3) by omega)]
          exact ih _ _ h

/-- Raising `dest_len` cannot change an error-free run of the LZ main
loop. -/
theorem lzLoop_mono (speclen d d' : Nat) (hdd : d ≤ d') : ∀ (fuel : Nat) (st : LzSt),
    (lzLoop d speclen fuel st).err = false →
    lzLoop d' speclen fuel st = lzLoop d speclen fuel st := by
  intro fuel
  induction fuel with
  | zero => intro st h; simp [lzLoop] at h
  | succ fuel ih =>
    intro st h
    simp only [lzLoop] at h ⊢
    by_cases h0 : st.dl = 0 ∨ gbLeft st.g = 0
    · simp only [if_pos h0]
    · simp only [if_neg h0] at h ⊢
      by_cases h1 : (gbGetByte st.g).1 = 255 ∧ 8 < st.dl
      · simp only [if_pos h1] at h ⊢
        by_cases h2 : d < st.out.length + 8 ∨ gbLeft (gbGetByte st.g).2 < 8
        · rw [if_pos h2] at h; simp at h
        · rw [if_neg h2] at h ⊢
          rw [if_neg (show ¬ (d' < st.out.length + 8 ∨ gbLeft (gbGetByte st.g).2 < 8) by omega)]
          exact ih _ h
      · simp only [if_neg h1] at h ⊢
        by_cases ht : (lzTagBits d speclen 8 (gbGetByte st.g).1
            { st with g := (gbGetByte st.g).2 }).2 = true
        · rw [if_pos ht] at h; simp at h
        · rw [lzTagBits_mono speclen d d' hdd 8 _ _ (by simpa using ht)]
          simp only [if_neg ht] at h ⊢
          exact ih _ h

/-- Raising `dest_len` cannot change an error-free run of `lz_unpack`. -/
theorem lzUnpack_mono (src : List Nat) (d d2 : Nat) (hdd : d ≤ d2)
    (h : (lzUnpack src d).err = false) :
    lzUnpack src d2 = lzUnpack src d := by
  by_cases h4 : gbLeft (gbGetLe32 (⟨src, 0⟩ : GB)).2 < 4
  · rw [lzUnpack_eq_short src d h4] at h
    simp at h
  · by_cases hs : gbPeekLe32 (gbGetLe32 (⟨src, 0⟩ : GB)).2 = 0x56781234
    · rw [lzUnpack_eq_sent src d h4 hs] at h
      rw [lzUnpack_eq_sent src d2 h4 hs, lzUnpack_eq_sent src d h4 hs]
      exact lzLoop_mono 18 d d2 hdd _ _ h
    · rw [lzUnpack_eq_nosent src d h4 hs] at h
      rw [lzUnpack_eq_nosent src d2 h4 hs, lzUnpack_eq_nosent src d h4 hs]
      exact lzLoop_mono 100 d d2 hdd _ _ h

/-- C7 counterexample: on the exact input of spec scenario 1
(`dataleft = 8`, bytes 0x56 0x78 0x12 0x34, tag 0xFF, literals A..H,
`dest_len = 8`) `lz_unpack` fails: those four bytes do not match the
little-endian sentinel comparison, so they are decoded as opcodes. -/
theorem lz_unpack_scenario1_fails :
    (lzUnpack c7orig 8).err = true ∧
      (lzUnpack c7orig 8).out ≠ [65, 66, 67, 68, 69, 70, 71, 72] := by decide

/-- C7 (amended): with the sentinel stored in little-endian byte order
(0x34 0x12 0x78 0x56) and any `dest_len ≥ 8`, the stream decodes
without error to exactly the eight bytes A..H. -/
theorem lz_unpack_scenario1 (destLen : Nat) (h : 8 ≤ destLen) :
    (lzUnpack c7fixed destLen).err = false ∧
      (lzUnpack c7fixed destLen).out = [65, 66, 67, 68, 69, 70, 71, 72] := by
  rw [lzUnpack_mono c7fixed 8 destLen h (by decide)]
  exact ⟨by decide, by decide⟩

/-- C7 witness: the amended round trip at `dest_len = 8`. -/
theorem lz_unpack_scenario1_witness :
    8 ≤ 8 ∧ (lzUnpack c7fixed 8).err = false ∧
      (lzUnpack c7fixed 8).out = [65, 66, 67, 68, 69, 70, 71, 72] :=
  ⟨by decide, lz_unpack_scenario1 8 (by decide)⟩

/-! ### C6: palette scaling -/

theorem lor_shiftRight (a b n : Nat) : (a ||| b) >>> n = (a >>> n) ||| (b >>> n) := by
  apply Nat.eq_of_testBit_eq
  intro i
  simp [Nat.testBit_lor, Nat.testBit_shiftRight]

theorem lor_land (a b m : Nat) : (a ||| b) &&& m = (a &&& m) ||| (b &&& m) := by
  apply Nat.eq_of_testBit_eq
  intro i
  simp [Nat.testBit_lor, Nat.testBit_land, Bool.and_or_distrib_right]

theorem lor_shiftLeft (a b n : Nat) : (a ||| b) <<< n = (a <<< n) ||| (b <<< n) := by
  apply Nat.eq_of_testBit_eq
  intro i
  simp [Nat.testBit_lor, Nat.testBit_shiftLeft, Bool.and_or_distrib_left]

theorem palLaneA : ((0xFF <<< 24 : Nat) >>> 6) &&& 0x30303 = 0 := by decide

set_option maxRecDepth 4000 in
theorem palLaneR : ∀ c < 256, (((c <<< 16) : Nat) >>> 6) &&& 0x30303 =
    ((c >>> 6) &&& 3) <<< 16 := by decide

set_option maxRecDepth 4000 in
theorem palLaneG : ∀ c < 256, (((c <<< 8) : Nat) >>> 6) &&& 0x30303 =
    ((c >>> 6) &&& 3) <<< 8 := by decide

set_option maxRecDepth 4000 in
theorem palLaneB : ∀ c < 256, (c >>> 6) &&& 0x30303 = (c >>> 6) &&& 3 := by decide

set_option maxRecDepth 4000 in
theorem palCompScale : ∀ v < 64, vmdPalComp v ||| ((vmdPalComp v >>> 6) &&& 3) =
    specScale v := by decide

/-- C6 (amended): the decoder's palette word computation scales every
6-bit component by `v' = (v << 2) | (v >> 4)` and keeps the alpha byte
0xFF; and the concrete 6-bit entry (0x3F, 0x20, 0x00) expands to the
8-bit entry (0xFF, 0x82, 0x00) with alpha 0xFF (word 0xFFFF8200), not
(0xFF, 0x83, 0x00). -/
theorem vmd_palette_scale_formula :
    (∀ r g b : Nat, r < 64 → g < 64 → b < 64 →
      vmdPalEntry r g b =
        0xFF <<< 24 ||| (specScale r <<< 16) ||| (specScale g <<< 8) ||| specScale b) ∧
    vmdPalEntry 0x3F 0x20 0x00 = 0xFFFF8200 := by
  constructor
  · intro r g b hr hg hb
    have hcr : vmdPalComp r < 256 := Nat.mod_lt _ (by norm_num)
    have hcg : vmdPalComp g < 256 := Nat.mod_lt _ (by norm_num)
    have hcb : vmdPalComp b < 256 := Nat.mod_lt _ (by norm_num)
    simp only [vmdPalEntry]
    rw [lor_shiftRight, lor_shiftRight, lor_shiftRight,
        lor_land, lor_land, lor_land,
        palLaneA, palLaneR _ hcr, palLaneG _ hcg, palLaneB _ hcb]
    rw [← palCompScale r hr, ← palCompScale g hg, ← palCompScale b hb]
    rw [lor_shiftLeft, lor_shiftLeft]
    simp only [Nat.zero_or]
    ac_rfl
  · decide

/-- C6 counterexample: the claim's concrete expansion is wrong; the
decoder maps the 6-bit entry (0x3F, 0x20, 0x00) to the 32-bit word
0xFFFF8200, not 0xFFFF8300 (the green component 0x20 scales to 0x82,
not 0x83). -/
theorem vmd_palette_scale_example_wrong :
    ¬ vmdPalEntry 0x3F 0x20 0x00 = 0xFFFF8300 := by decide

/-- C6 witness: the amended formula applied at the concrete entry
(0x3F, 0x20, 0x00). -/
theorem vmd_palette_scale_formula_witness :
    ((0x3F : Nat) < 64 ∧ (0x20 : Nat) < 64 ∧ (0x00 : Nat) < 64) ∧
      vmdPalEntry 0x3F 0x20 0x00 =
        0xFF <<< 24 ||| (specScale 0x3F <<< 16) ||| (specScale 0x20 <<< 8) ||| specScale 0x00 :=
  ⟨by decide, vmd_palette_scale_formula.1 0x3F 0x20 0x00 (by decide) (by decide) (by decide)⟩

/-! ### C3: the RBT LZS length coder -/

theorem toBits_length : ∀ (n v : Nat), (toBits n v).length = n := by
  intro n
  induction n with
  | zero => intro v; rfl
  | succ n ih => intro v; simp [toBits, ih]

theorem bitsVal_lt : ∀ s : List Bool, bitsVal s < 2 ^ s.length := by
  intro s
  induction s with
  | nil => decide
  | cons b bs ih =>
    have h2 : (2:Nat) ^ (b :: bs).length = 2 * 2 ^ bs.length := by
      rw [List.length_cons, Nat.pow_succ]
      omega
    rcases b <;> simp [bitsVal] <;> omega

theorem bitsVal_append : ∀ xs ys : List Bool,
    bitsVal (xs ++ ys) = bitsVal xs * 2 ^ ys.length + bitsVal ys := by
  intro xs ys
  induction xs with
  | nil => simp [bitsVal]
  | cons x xs ih =>
    simp only [List.cons_append, bitsVal, List.append_eq, List.length_append, ih]
    rw [Nat.pow_add]
    ring

theorem bitsVal_toBits : ∀ (n v : Nat), bitsVal (toBits n v) = v % 2 ^ n := by
  intro n
  induction n with
  | zero => intro v; simp [toBits, bitsVal, Nat.mod_one]
  | succ n ih =>
    intro v
    rw [toBits, bitsVal_append, ih]
    have h1 : bitsVal [v &&& 1 == 1] = v % 2 := by
      have := Nat.and_one_is_mod v
      rcases Nat.mod_two_eq_zero_or_one v with h | h <;>
        simp [bitsVal, this, h]
    rw [h1, Nat.shiftRight_one, List.length_singleton]
    conv_rhs => rw [Nat.pow_succ', Nat.mod_mul]
    ring

theorem takePad_length (s : List Bool) (n : Nat) : (takePad s n).length = n := by
  simp [takePad]
  omega

theorem takePad_append (xs s : List Bool) (m : Nat) :
    takePad (xs ++ s) (xs.length + m) = xs ++ takePad s m := by
  simp only [takePad, List.take_append, List.length_append, List.append_assoc]
  have hc : xs.length + m - (xs.length + s.length) = m - s.length := by omega
  rw [hc]

theorem viewBits_append (xs rest : List Bool) (m : Nat) :
    viewBits (xs ++ rest) (xs.length + m) =
      bitsVal xs * 2 ^ m + bitsVal (takePad rest m) := by
  rw [viewBits, takePad_append, bitsVal_append, takePad_length]

theorem viewBits_self (xs rest : List Bool) (n : Nat) (h : xs.length = n) :
    viewBits (xs ++ rest) n = bitsVal xs := by
  subst h
  have h0 : xs.length = xs.length + 0 := rfl
  rw [h0, viewBits_append]
  simp [takePad, bitsVal]

theorem viewBits4_of2 (xs rest : List Bool) (h : xs.length = 2) :
    viewBits (xs ++ rest) 4 = bitsVal xs * 4 + bitsVal (takePad rest 2) := by
  have h4 : (4 : Nat) = xs.length + 2 := by omega
  conv_lhs => rw [h4]
  rw [viewBits_append]
  norm_num

theorem drop_pref (xs rest : List Bool) (n : Nat) (h : xs.length = n) :
    (xs ++ rest).drop n = rest := by
  rw [← h, List.drop_left]

theorem lzsVlcTable_lt4 (v : Nat) (h : v < 4) : lzsVlcTable v = (2, 2) := by
  rw [lzsVlcTable, if_pos h]

theorem lzsVlcTable_code3 (v : Nat) (h4 : 4 ≤ v) (h8 : v < 8) : lzsVlcTable v = (2, 3) := by
  rw [lzsVlcTable, if_neg (by omega), if_pos h8]

theorem lzsVlcTable_code4 (v : Nat) (h8 : 8 ≤ v) (h12 : v < 12) : lzsVlcTable v = (2, 4) := by
  rw [lzsVlcTable, if_neg (by omega), if_neg (by omega), if_pos h12]

theorem encodeGroupsF_zero : ∀ fuel, encodeGroupsF fuel 0 = [] := by
  intro fuel
  cases fuel <;> simp [encodeGroupsF]

theorem encodeGroupsF_fuel : ∀ (r : Nat), ∀ fuel fuel2, r ≤ fuel → r ≤ fuel2 →
    encodeGroupsF fuel r = encodeGroupsF fuel2 r := by
  intro r
  induction r using Nat.strong_induction_on with
  | _ r ih =>
    intro fuel fuel2 h1 h2
    by_cases hr : r = 0
    · subst hr
      rw [encodeGroupsF_zero, encodeGroupsF_zero]
    · rcases fuel with - | f
      · omega
      · rcases fuel2 with - | f2
        · omega
        · simp only [encodeGroupsF, if_neg hr]
          by_cases h15 : 15 ≤ r
          · rw [if_pos h15, if_pos h15, ih (r - 15) (by omega) f f2 (by omega) (by omega)]
          · rw [if_neg h15, if_neg h15]

theorem encodeGroups_unfold (r : Nat) (h : 15 ≤ r) :
    encodeGroups r = toBits 4 15 ++ encodeGroups (r - 15) := by
  rw [encodeGroups, encodeGroups]
  rcases r with - | f
  · omega
  · simp only [encodeGroupsF, if_neg (by omega : ¬ (f + 1 = 0)), if_pos h]
    rw [encodeGroupsF_fuel (f + 1 - 15) f (f + 1 - 15) (by omega) (by omega)]

theorem encodeGroups_small (r : Nat) (h1 : 1 ≤ r) (h15 : r < 15) :
    encodeGroups r = toBits 4 r := by
  rw [encodeGroups]
  rcases r with - | f
  · omega
  · simp only [encodeGroupsF, if_neg (by omega : ¬ (f + 1 = 0)), if_neg (by omega : ¬ 15 ≤ f + 1)]

theorem lzsGroupLoopF_spec : ∀ (r : Nat), 1 ≤ r → r % 15 ≠ 0 →
    ∀ (fuel : Nat) (rest : List Bool) (acc : Nat),
    (encodeGroups r).length ≤ 4 * fuel →
    lzsGroupLoopF fuel (encodeGroups r ++ rest) acc = (acc + r, (encodeGroups r).length) := by
  intro r
  induction r using Nat.strong_induction_on with
  | _ r ih =>
    intro h1 h15 fuel rest acc hfuel
    by_cases hr : r < 15
    · -- final group, smaller than 15: the loop exits after reading it
      rw [encodeGroups_small r h1 hr] at hfuel ⊢
      have hv : viewBits (toBits 4 r ++ rest) 4 = r := by
        rw [viewBits_self _ _ 4 (toBits_length 4 r), bitsVal_toBits]
        omega
      rcases fuel with - | f
      · rw [lzsGroupLoopF, hv, toBits_length]
      · rw [lzsGroupLoopF]
        simp only [hv, if_neg (by omega : ¬ r = 15)]
        rw [toBits_length]
    · -- a 0xF group, then the rest
      have hge : 16 ≤ r := by omega
      rw [encodeGroups_unfold r (by omega)] at hfuel ⊢
      rw [List.append_assoc]
      have hv : viewBits (toBits 4 15 ++ (encodeGroups (r - 15) ++ rest)) 4 = 15 := by
        rw [viewBits_self _ _ 4 (toBits_length 4 15)]
        decide
      rcases fuel with - | f
      · exfalso
        simp [toBits_length] at hfuel
      · rw [lzsGroupLoopF]
        simp only [hv, if_pos rfl]
        rw [drop_pref _ _ 4 (toBits_length 4 15)]
        rw [ih (r - 15) (by omega) (by omega) (by omega) f rest (acc + 15)
            (by simp only [List.length_append, toBits_length] at hfuel; omega)]
        dsimp only
        simp only [if_true, List.length_append, toBits_length, Prod.mk.injEq]
        constructor <;> omega

/-- C3 (amended): the RBT length-VLC round-trips for every
L ∈ [2, 2047] except the lengths L with L ≥ 8 and (L − 8) mod 15 = 0
(L = 8, 23, 38, ...): for the others, decoding the encoder's bits,
followed by any continuation of the stream, yields L and consumes
exactly the emitted bits. -/
theorem lzs_length_roundtrip (L : Nat) (h2 : 2 ≤ L) (h2047 : L ≤ 2047)
    (hok : L < 8 ∨ (L - 8) % 15 ≠ 0) (rest : List Bool) :
    getLzsBackRefLength (encodeLen L ++ rest) = (L, (encodeLen L).length) := by
  by_cases hL4 : L ≤ 4
  · -- 2-bit codes
    have hj : bitsVal (takePad rest 2) < 4 := by
      have := bitsVal_lt (takePad rest 2)
      rwa [takePad_length] at this
    interval_cases L
    · have he : encodeLen 2 = [false, false] := by decide
      rw [he]
      have hv := viewBits4_of2 [false, false] rest (by decide)
      norm_num [bitsVal] at hv
      rw [getLzsBackRefLength]
      simp only [List.cons_append, List.nil_append]
      rw [hv]
      rw [lzsVlcTable_lt4 _ (by omega)]
      simp
    · have he : encodeLen 3 = [false, true] := by decide
      rw [he]
      have hv := viewBits4_of2 [false, true] rest (by decide)
      norm_num [bitsVal] at hv
      rw [getLzsBackRefLength]
      simp only [List.cons_append, List.nil_append]
      rw [hv]
      rw [lzsVlcTable_code3 _ (by omega) (by omega)]
      simp
    · have he : encodeLen 4 = [true, false] := by decide
      rw [he]
      have hv := viewBits4_of2 [true, false] rest (by decide)
      norm_num [bitsVal] at hv
      rw [getLzsBackRefLength]
      simp only [List.cons_append, List.nil_append]
      rw [hv]
      rw [lzsVlcTable_code4 _ (by omega) (by omega)]
      simp
  · by_cases hL7 : L ≤ 7
    · -- 4-bit codes 12, 13, 14
      interval_cases L
      · have he : encodeLen 5 = [true, true, false, false] := by decide
        rw [he]
        rw [getLzsBackRefLength,
            viewBits_self [true, true, false, false] rest 4 (by decide)]
        norm_num [bitsVal, lzsVlcTable]
      · have he : encodeLen 6 = [true, true, false, true] := by decide
        rw [he]
        rw [getLzsBackRefLength,
            viewBits_self [true, true, false, true] rest 4 (by decide)]
        norm_num [bitsVal, lzsVlcTable]
      · have he : encodeLen 7 = [true, true, true, false] := by decide
        rw [he]
        rw [getLzsBackRefLength,
            viewBits_self [true, true, true, false] rest 4 (by decide)]
        norm_num [bitsVal, lzsVlcTable]
    · -- the 0xF escape plus groups
      have h8 : 8 ≤ L := by omega
      have hr15 : (L - 8) % 15 ≠ 0 := by
        rcases hok with h | h
        · omega
        · exact h
      have hr1 : 1 ≤ L - 8 := by omega
      have he : encodeLen L = toBits 4 15 ++ encodeGroups (L - 8) := by
        rw [encodeLen, if_neg (by omega), if_neg (by omega)]
      rw [he, List.append_assoc]
      have hv : viewBits (toBits 4 15 ++ (encodeGroups (L - 8) ++ rest)) 4 = 15 := by
        rw [viewBits_self _ _ 4 (toBits_length 4 15)]
        decide
      rw [getLzsBackRefLength, hv]
      norm_num [lzsVlcTable]
      rw [drop_pref _ _ 4 (toBits_length 4 15)]
      rw [lzsGroupLoopF_spec (L - 8) hr1 hr15]
      · dsimp only
        simp only [toBits_length]
        constructor <;> first | omega | trivial
      · simp only [toBits_length]
        omega

/-- C3 counterexample: at L = 8 the encoder emits only the four escape
bits 1111, but the decoder then demands at least one further 4-bit
group, consuming 8 bits where 4 were emitted — the round trip does not
consume exactly the emitted bits. -/
theorem lzs_length_roundtrip_fails_at_8 :
    ¬ getLzsBackRefLength (encodeLen 8) = (8, (encodeLen 8).length) := by decide

/-- C3 witness: the amended round trip at L = 10 with an empty
continuation. -/
theorem lzs_length_roundtrip_witness :
    (2 ≤ 10 ∧ 10 ≤ 2047 ∧ (10 < 8 ∨ (10 - 8) % 15 ≠ 0)) ∧
      getLzsBackRefLength (encodeLen 10 ++ []) = (10, (encodeLen 10).length) :=
  ⟨by decide, lzs_length_roundtrip 10 (by decide) (by decide) (by decide) []⟩


/-! ### C1 / C4: vmd_decode -/

theorem m1Row_req (fw : Nat) (prev : Option (List Nat)) (base : Nat) :
    ∀ fuel g ofs acc, (m1Row fw prev base fuel g ofs acc).req = true →
      (m1Row fw prev base fuel g ofs acc).ok = false := by
  intro fuel
  induction fuel with
  | zero => intro g ofs acc h; rfl
  | succ fuel ih =>
    intro g ofs acc h
    simp only [m1Row] at h ⊢
    split_ifs at h ⊢ <;>
      first
      | rfl
      | exact ih _ _ _ h
      | simp at h

theorem m3Row_req (fw : Nat) (prev : Option (List Nat)) (base : Nat) :
    ∀ fuel g ofs acc, (m3Row fw prev base fuel g ofs acc).req = true →
      (m3Row fw prev base fuel g ofs acc).ok = false := by
  intro fuel
  induction fuel with
  | zero => intro g ofs acc h; rfl
  | succ fuel ih =>
    intro g ofs acc h
    simp only [m3Row] at h ⊢
    split_ifs at h ⊢ <;>
      first
      | rfl
      | exact ih _ _ _ h
      | simp at h

theorem m1Rows_req (fw : Nat) (prev : Option (List Nat)) (w : Nat) :
    ∀ n base g acc, (m1Rows fw prev w n base g acc).req = true →
      (m1Rows fw prev w n base g acc).ok = false := by
  intro n
  induction n with
  | zero => intro base g acc h; simp [m1Rows] at h
  | succ n ih =>
    intro base g acc h
    simp only [m1Rows] at h ⊢
    split_ifs at h ⊢ with hok
    · exact ih _ _ _ h
    · simp only [Bool.not_eq_true] at hok
      exact hok

theorem m3Rows_req (fw : Nat) (prev : Option (List Nat)) (w : Nat) :
    ∀ n base g acc, (m3Rows fw prev w n base g acc).req = true →
      (m3Rows fw prev w n base g acc).ok = false := by
  intro n
  induction n with
  | zero => intro base g acc h; simp [m3Rows] at h
  | succ n ih =>
    intro base g acc h
    simp only [m3Rows] at h ⊢
    split_ifs at h ⊢ with hok
    · exact ih _ _ _ h
    · simp only [Bool.not_eq_true] at hok
      exact hok

theorem m2Rows_req (fw w : Nat) :
    ∀ n base g acc, (m2Rows fw w n base g acc).req = false := by
  intro n
  induction n with
  | zero => intro base g acc; rfl
  | succ n ih => intro base g acc; simp only [m2Rows]; exact ih _ _ _

theorem vmdMeth_req (c : DecCtx) (meth fx fy fw fh : Nat) (w0 : List (Nat × Nat)) (g : GB) :
    (vmdMeth c meth fx fy fw fh w0 g).req = true →
    (vmdMeth c meth fx fy fw fh w0 g).ok = false := by
  intro h
  simp only [vmdMeth, rowToDec] at h ⊢
  split_ifs at h ⊢ <;>
    first
    | exact m1Rows_req _ _ _ _ _ _ _ h
    | exact m3Rows_req _ _ _ _ _ _ _ h
    | (rw [m2Rows_req] at h; cases h)
    | simp at h

theorem vmdBody_req (c : DecCtx) (buf : List Nat) (fx fy fw fh : Nat)
    (w0 : List (Nat × Nat)) (g : GB) :
    (vmdBody c buf fx fy fw fh w0 g).req = true →
    (vmdBody c buf fx fy fw fh w0 g).ok = false := by
  intro h
  simp only [vmdBody] at h ⊢
  split_ifs at h ⊢ <;>
    first
    | exact vmdMeth_req _ _ _ _ _ _ _ _ h
    | simp at h

set_option maxHeartbeats 1000000 in
theorem vmdDecode_req (c : DecCtx) (buf : List Nat) :
    (vmdDecode c buf).req = true → (vmdDecode c buf).ok = false := by
  intro h
  rcases hr : vmdRect c buf with - | ⟨fx, fy, fw, fh⟩
  · simp only [vmdDecode, hr] at h
    exact Bool.noConfusion h
  · simp only [vmdDecode, hr] at h ⊢
    split_ifs at h ⊢ <;>
      first
      | exact vmdBody_req _ _ _ _ _ _ _ _ h
      | simp at h

/-- C4: whenever a method-1 or method-3 stream requests an interframe
pixel copy while the decoder holds no previous frame plane (the `req`
instrumentation flag of the row loops), `vmd_decode` fails with
invalid data, and `vmdvideo_decode_frame` outputs no frame for that
packet. -/
theorem vmd_decode_missing_prev_errors (c : DecCtx) (buf : List Nat)
    (h : (vmdDecode c buf).req = true) :
    (vmdDecode c buf).ok = false ∧ vmdvideoDecodeFrame c buf = none := by
  have hok := vmdDecode_req c buf h
  refine ⟨hok, ?_⟩
  simp [vmdvideoDecodeFrame, hok]

set_option maxHeartbeats 2000000 in
/-- C4 witness: the 1×1 method-1 packet whose first opcode byte 0x00
requests an interframe copy while no previous frame exists. -/
theorem vmd_decode_missing_prev_errors_witness :
    (vmdDecode c4ctx c4buf).req = true ∧
      ((vmdDecode c4ctx c4buf).ok = false ∧ vmdvideoDecodeFrame c4ctx c4buf = none) :=
  ⟨by decide, vmd_decode_missing_prev_errors c4ctx c4buf (by decide)⟩


theorem m1Row_writes (fw : Nat) (prev : Option (List Nat)) (base B : Nat)
    (hB : base + max fw 1 ≤ B) :
    ∀ fuel g ofs acc, (∀ xv ∈ acc, xv.1 < B) →
      ∀ wv ∈ (m1Row fw prev base fuel g ofs acc).writes, wv.1 < B := by
  intro fuel
  induction fuel with
  | zero => intro g ofs acc hacc wv hwv; exact hacc wv hwv
  | succ fuel ih =>
    intro g ofs acc hacc wv hwv
    simp only [m1Row] at hwv
    have hl := gbGetBuffer_len_le (gbGetByte g).2 (((gbGetByte g).1 &&& 127) + 1)
    split_ifs at hwv <;>
      first
      | exact hacc wv hwv
      | · refine ih _ _ _ ?_ wv hwv
          intro xv hxv
          rcases List.mem_append.mp hxv with hx | hx
          · exact hacc xv hx
          · have hb := mkWrites_mem hx
            first
            | (simp only [List.length_map, List.length_range] at hb; omega)
            | omega
      | · rcases List.mem_append.mp hwv with hx | hx
          · exact hacc wv hx
          · have hb := mkWrites_mem hx
            first
            | (simp only [List.length_map, List.length_range] at hb; omega)
            | omega

theorem m3Row_writes (fw : Nat) (prev : Option (List Nat)) (base B : Nat)
    (hB : base + max fw 1 ≤ B) :
    ∀ fuel g ofs acc, ofs < fw ∨ ofs = 0 → (∀ xv ∈ acc, xv.1 < B) →
      ∀ wv ∈ (m3Row fw prev base fuel g ofs acc).writes, wv.1 < B := by
  intro fuel
  induction fuel with
  | zero => intro g ofs acc hofs hacc wv hwv; exact hacc wv hwv
  | succ fuel ih =>
    intro g ofs acc hofs hacc wv hwv
    simp only [m3Row] at hwv
    have hl := gbGetBuffer_len_le (gbGetByte g).2 (((gbGetByte g).1 &&& 127) + 1)
    have hrle := rleUnpack_writes_lt_max
      ((gbGetByte (gbGetByte g).2).2.data.drop (gbGetByte (gbGetByte g).2).2.pos)
      (((gbGetByte g).1 &&& 127) + 1)
      (gbLeft (gbGetByte (gbGetByte g).2).2) (fw - ofs)
    split_ifs at hwv <;>
      first
      | exact hacc wv hwv
      | · refine ih _ _ _ (by omega) ?_ wv hwv
          intro xv hxv
          rcases List.mem_append.mp hxv with hx | hx
          · exact hacc xv hx
          · first
            | · rcases List.mem_map.mp hx with ⟨pv, hpv, hpe⟩
                have hp := hrle pv hpv
                cases hpe
                show base + ofs + pv.1 < B
                omega
            | · have hb := mkWrites_mem hx
                first
                | (simp only [List.length_map, List.length_range] at hb; omega)
                | omega
      | · rcases List.mem_append.mp hwv with hx | hx
          · exact hacc wv hx
          · first
            | · rcases List.mem_map.mp hx with ⟨pv, hpv, hpe⟩
                have hp := hrle pv hpv
                cases hpe
                show base + ofs + pv.1 < B
                omega
            | · have hb := mkWrites_mem hx
                first
                | (simp only [List.length_map, List.length_range] at hb; omega)
                | omega

theorem m1Rows_writes (fw : Nat) (prev : Option (List Nat)) (w B : Nat) :
    ∀ n base g acc, (∀ k, k < n → base + k * w + max fw 1 ≤ B) →
      (∀ xv ∈ acc, xv.1 < B) →
      ∀ wv ∈ (m1Rows fw prev w n base g acc).writes, wv.1 < B := by
  intro n
  induction n with
  | zero => intro base g acc hk hacc wv hwv; exact hacc wv hwv
  | succ n ih =>
    intro base g acc hk hacc wv hwv
    simp only [m1Rows] at hwv
    have hrow := m1Row_writes fw prev base B
      (by have h0 := hk 0 (by omega); omega) (fw + 1) g 0 acc hacc
    split_ifs at hwv
    · refine ih (base + w) _ _ ?_ hrow wv hwv
      intro k hkn
      have h0 := hk (k + 1) (by omega)
      have e : (k + 1) * w = k * w + w := Nat.succ_mul k w
      omega
    · exact hrow wv hwv

theorem m3Rows_writes (fw : Nat) (prev : Option (List Nat)) (w B : Nat) :
    ∀ n base g acc, (∀ k, k < n → base + k * w + max fw 1 ≤ B) →
      (∀ xv ∈ acc, xv.1 < B) →
      ∀ wv ∈ (m3Rows fw prev w n base g acc).writes, wv.1 < B := by
  intro n
  induction n with
  | zero => intro base g acc hk hacc wv hwv; exact hacc wv hwv
  | succ n ih =>
    intro base g acc hk hacc wv hwv
    simp only [m3Rows] at hwv
    have hrow := m3Row_writes fw prev base B
      (by have h0 := hk 0 (by omega); omega) (fw + 1) g 0 acc (Or.inr rfl) hacc
    split_ifs at hwv
    · refine ih (base + w) _ _ ?_ hrow wv hwv
      intro k hkn
      have h0 := hk (k + 1) (by omega)
      have e : (k + 1) * w = k * w + w := Nat.succ_mul k w
      omega
    · exact hrow wv hwv

theorem m2Rows_writes (fw w B : Nat) :
    ∀ n base g acc, (∀ k, k < n → base + k * w + max fw 1 ≤ B) →
      (∀ xv ∈ acc, xv.1 < B) →
      ∀ wv ∈ (m2Rows fw w n base g acc).writes, wv.1 < B := by
  intro n
  induction n with
  | zero => intro base g acc hk hacc wv hwv; exact hacc wv hwv
  | succ n ih =>
    intro base g acc hk hacc wv hwv
    simp only [m2Rows] at hwv
    refine ih (base + w) _ _ ?_ ?_ wv hwv
    · intro k hkn
      have h0 := hk (k + 1) (by omega)
      have e : (k + 1) * w = k * w + w := Nat.succ_mul k w
      omega
    · intro xv hxv
      rcases List.mem_append.mp hxv with hx | hx
      · exact hacc xv hx
      · have hb := mkWrites_mem hx
        have hl := gbGetBuffer_len_le g fw
        have h0 := hk 0 (by omega)
        omega

theorem rowBase_bound (w h fx fy fw fh k : Nat) (hfx : fx < w) (hfxw : fx + fw ≤ w)
    (hfyh : fy + fh ≤ h) (hk : k < fh) :
    fy * w + fx + k * w + max fw 1 ≤ w * h := by
  have e1 : (fy + k) * w = fy * w + k * w := Nat.add_mul fy k w
  have e2 : (fy + k + 1) * w = (fy + k) * w + w := Nat.succ_mul _ _
  have e3 : (fy + k + 1) * w ≤ h * w := Nat.mul_le_mul (by omega) (Nat.le_refl w)
  have e4 : h * w = w * h := Nat.mul_comm h w
  omega

theorem vmdMeth_writes (c : DecCtx) (meth fx fy fw fh : Nat)
    (hfx : fx < c.w) (hfxw : fx + fw ≤ c.w) (hfyh : fy + fh ≤ c.h)
    (w0 : List (Nat × Nat)) (hw0 : ∀ xv ∈ w0, xv.1 < c.w * c.h) (g : GB) :
    ∀ wv ∈ (vmdMeth c meth fx fy fw fh w0 g).writes, wv.1 < c.w * c.h := by
  intro wv hwv
  have hrow : ∀ k, k < fh → fy * c.w + fx + k * c.w + max fw 1 ≤ c.w * c.h :=
    fun k hk => rowBase_bound c.w c.h fx fy fw fh k hfx hfxw hfyh hk
  simp only [vmdMeth, rowToDec] at hwv
  split_ifs at hwv
  · exact m1Rows_writes fw c.prev c.w (c.w * c.h) fh (fy * c.w + fx) g w0 hrow hw0 wv hwv
  · exact m2Rows_writes fw c.w (c.w * c.h) fh (fy * c.w + fx) g w0 hrow hw0 wv hwv
  · exact m3Rows_writes fw c.prev c.w (c.w * c.h) fh (fy * c.w + fx) g w0 hrow hw0 wv hwv
  · exact hw0 wv hwv

theorem prevCopy_writes (c : DecCtx) (fx fy fw fh : Nat) :
    ∀ wv ∈ prevCopy c fx fy fw fh, wv.1 < c.w * c.h := by
  intro wv hwv
  simp only [prevCopy] at hwv
  split_ifs at hwv <;>
    first
    | exact absurd hwv (List.not_mem_nil wv)
    | · have hb := mkWrites_mem hwv
        simp only [List.length_map, List.length_range] at hb
        have e : c.h * c.w = c.w * c.h := Nat.mul_comm _ _
        omega

theorem vmdBody_writes (c : DecCtx) (buf : List Nat) (fx fy fw fh : Nat)
    (hfx : fx < c.w) (hfxw : fx + fw ≤ c.w) (hfyh : fy + fh ≤ c.h)
    (w0 : List (Nat × Nat)) (hw0 : ∀ xv ∈ w0, xv.1 < c.w * c.h) (g : GB) :
    ∀ wv ∈ (vmdBody c buf fx fy fw fh w0 g).writes, wv.1 < c.w * c.h := by
  intro wv hwv
  simp only [vmdBody] at hwv
  split_ifs at hwv <;>
    first
    | exact hw0 wv hwv
    | exact vmdMeth_writes c _ fx fy fw fh hfx hfxw hfyh w0 hw0 _ wv hwv

theorem vmdRect_bounds {c : DecCtx} {buf : List Nat} {fx fy fw fh : Nat}
    (h : vmdRect c buf = some (fx, fy, fw, fh)) :
    fx < c.w ∧ fx + fw ≤ c.w ∧ fy < c.h ∧ fy + fh ≤ c.h := by
  simp only [vmdRect] at h
  split_ifs at h <;>
    first
    | exact Option.noConfusion h
    | (simp only [Option.some.injEq, Prod.mk.injEq] at h
       obtain ⟨e1, e2, e3, e4⟩ := h
       subst e1; subst e2; subst e3; subst e4
       refine ⟨?_, ?_, ?_, ?_⟩ <;> omega)

set_option maxHeartbeats 1000000 in
/-- C1 (amended): every byte written by `vmd_decode` (any method, with
or without LZ prefix, including the whole-plane copy of the previous
frame and the RLE runs of method 3) lands inside the `width * height`
output plane.  The writes are not confined to the validated update
rectangle. -/
theorem vmd_decode_writes_in_plane (c : DecCtx) (buf : List Nat) :
    ∀ wv ∈ (vmdDecode c buf).writes, wv.1 < c.w * c.h := by
  intro wv hwv
  rcases hr : vmdRect c buf with - | ⟨fx, fy, fw, fh⟩
  · simp only [vmdDecode, hr] at hwv
    simp at hwv
  · obtain ⟨hfx, hfxw, hfy, hfyh⟩ := vmdRect_bounds hr
    have hw0 := prevCopy_writes c fx fy fw fh
    simp only [vmdDecode, hr] at hwv
    split_ifs at hwv <;>
      first
      | exact vmdBody_writes c buf fx fy fw fh hfx hfxw hfyh _ hw0 _ wv hwv
      | exact hw0 wv hwv

set_option maxHeartbeats 2000000 in
/-- C1 counterexample: on a 2×2 frame with a previous frame present
and a validated 1×1 update rectangle at (0, 0), the decode succeeds
yet writes plane index 3 — pixel (1, 1), outside the rectangle —
because the whole previous plane is copied first. -/
theorem vmd_decode_write_outside_rect :
    vmdRect c1ctx c1buf = some (0, 0, 1, 1) ∧
      (vmdDecode c1ctx c1buf).ok = true ∧
      (3, 9) ∈ (vmdDecode c1ctx c1buf).writes ∧
      ¬ inUpdateRect 2 0 0 1 1 3 := by decide

set_option maxHeartbeats 2000000 in
/-- C1 witness: the amended plane bound applied to the out-of-rectangle
write of the counterexample decode. -/
theorem vmd_decode_writes_in_plane_witness :
    (3, 9) ∈ (vmdDecode c1ctx c1buf).writes ∧ ((3, 9) : Nat × Nat).1 < c1ctx.w * c1ctx.h :=
  ⟨by decide, vmd_decode_writes_in_plane c1ctx c1buf (3, 9) (by decide)⟩


/-! ### C5 / C8: the VMD video encoder -/

theorem palPoke_length (acc : List Nat) (e : PalEntry) :
    (palPoke acc e).length = acc.length := by
  simp [palPoke]

theorem palDump_foldl_length : ∀ (l : List PalEntry) (acc : List Nat),
    (l.foldl palPoke acc).length = acc.length := by
  intro l
  induction l with
  | nil => intro acc; rfl
  | cons x xs ih => intro acc; rw [List.foldl_cons, ih, palPoke_length]

theorem palDump_length (pal : List PalEntry) : (palDump pal).length = 768 := by
  rw [palDump, palDump_foldl_length, List.length_replicate]

set_option maxHeartbeats 4000000 in
set_option maxRecDepth 20000 in
/-- C5: on a frame with 257 distinct quantized colors the palette
overflows, the encoder resets and re-processes — and the count
overflows 256 again (258 entries) — yet the encode still succeeds:
the code has no invalid-data error for a second overflow on the same
frame. -/
theorem vmd_encode_second_overflow_no_error :
    (vmdvideoEncodeFrame 257 1 pict257 resetPalette []).resetOccurred = true ∧
      256 < (vmdvideoEncodeFrame 257 1 pict257 resetPalette []).st.count ∧
      (vmdvideoEncodeFrame 257 1 pict257 resetPalette []).ok = true := by decide

/-- C8 (amended): every packet's side-data prefix starts with four
zero bytes (the left and top corner words), then `width − 1` and
`height − 1` as big-endian 16-bit values — not four zero coordinate
words — then the new-palette flag (1 exactly when the palette map was
reset this frame), the count byte of newly appended entries, 768
palette-chunk bytes, and the method byte 2 before the frame data. -/
theorem vmd_encode_packet_prefix (w h : Nat) (pict : Nat → Nat) (st0 : EncSt)
    (junk : List Nat) (hj : junk.length = 768) (hst : 1 ≤ st0.count) :
    ∃ pal cur : List Nat, pal.length = 768 ∧
      (vmdvideoEncodeFrame w h pict st0 junk).packet =
        [0, 0, 0, 0,
         ((w - 1) >>> 8) &&& 255, (w - 1) &&& 255,
         ((h - 1) >>> 8) &&& 255, (h - 1) &&& 255,
         if (vmdvideoEncodeFrame w h pict st0 junk).resetOccurred then 1 else 0,
         ((vmdvideoEncodeFrame w h pict st0 junk).st.count -
           (if (vmdvideoEncodeFrame w h pict st0 junk).resetOccurred then 0
            else st0.count)) % 256] ++ pal ++ [2] ++ cur := by
  by_cases h1 : 256 < (processColors pict (w * h) st0).1.count
  · refine ⟨palDump (processColors pict (w * h) resetPalette).1.pal,
      (processColors pict (w * h) resetPalette).2, palDump_length _, ?_⟩
    simp [vmdvideoEncodeFrame, if_pos h1, encHeader]
  · by_cases h2 : st0.count < (processColors pict (w * h) st0).1.count
    · refine ⟨palDump (processColors pict (w * h) st0).1.pal,
        (processColors pict (w * h) st0).2, palDump_length _, ?_⟩
      simp [vmdvideoEncodeFrame, if_neg h1, if_pos h2, encHeader,
        if_neg (by omega : ¬ st0.count = 0)]
    · refine ⟨junk, (processColors pict (w * h) st0).2, hj, ?_⟩
      simp [vmdvideoEncodeFrame, if_neg h1, if_neg h2, encHeader,
        if_neg (by omega : ¬ st0.count = 0)]

/-- C8 counterexample: a 2×2 all-black frame: bytes 4-7 of the packet
prefix are not zero — they carry `width − 1` and `height − 1`
big-endian. -/
theorem vmd_encode_coords_not_zero :
    ¬ ((vmdvideoEncodeFrame 2 2 pictBlack resetPalette
        (List.replicate 768 0)).packet.take 8 = [0, 0, 0, 0, 0, 0, 0, 0]) := by decide

set_option maxRecDepth 4000 in
/-- C8 witness: the amended prefix shape at a 2×2 all-black frame with
the freshly reset palette state. -/
theorem vmd_encode_packet_prefix_witness :
    ((List.replicate 768 0 : List Nat).length = 768 ∧ 1 ≤ resetPalette.count) ∧
      (∃ pal cur : List Nat, pal.length = 768 ∧
        (vmdvideoEncodeFrame 2 2 pictBlack resetPalette
            (List.replicate 768 0)).packet =
          [0, 0, 0, 0,
           ((2 - 1) >>> 8) &&& 255, (2 - 1) &&& 255,
           ((2 - 1) >>> 8) &&& 255, (2 - 1) &&& 255,
           if (vmdvideoEncodeFrame 2 2 pictBlack resetPalette
               (List.replicate 768 0)).resetOccurred then 1 else 0,
           ((vmdvideoEncodeFrame 2 2 pictBlack resetPalette
               (List.replicate 768 0)).st.count -
             (if (vmdvideoEncodeFrame 2 2 pictBlack resetPalette
                  (List.replicate 768 0)).resetOccurred then 0
              else resetPalette.count)) % 256] ++ pal ++ [2] ++ cur) :=
  ⟨⟨by decide, by decide⟩,
   vmd_encode_packet_prefix 2 2 pictBlack resetPalette
     (List.replicate 768 0) (by decide) (by decide)⟩


/-! ### C9: the VMD container trailer -/

theorem avioW8_pos (s : Avio) (v : Nat) : (avioW8 s v).pos = s.pos + 1 := rfl

theorem avioW8_keep (s : Avio) (v i : Nat) (h : i ≠ s.pos) :
    (avioW8 s v).data i = s.data i := by
  simp [avioW8, h]

theorem avioW8_read (s : Avio) (v : Nat) : (avioW8 s v).data s.pos = v % 256 := by
  simp [avioW8]

theorem avioWl16_pos (s : Avio) (v : Nat) : (avioWl16 s v).pos = s.pos + 2 := rfl

theorem avioWl16_keep (s : Avio) (v i : Nat) (h1 : i ≠ s.pos) (h2 : i ≠ s.pos + 1) :
    (avioWl16 s v).data i = s.data i := by
  rw [avioWl16, avioW8_keep _ _ _ (by rw [avioW8_pos]; omega), avioW8_keep _ _ _ h1]

theorem avioWl16_read0 (s : Avio) (v : Nat) : (avioWl16 s v).data s.pos = v % 256 := by
  rw [avioWl16, avioW8_keep _ _ _ (by rw [avioW8_pos]; omega), avioW8_read]

theorem avioWl16_read1 (s : Avio) (v : Nat) :
    (avioWl16 s v).data (s.pos + 1) = (v >>> 8) % 256 := by
  rw [avioWl16]
  have e : s.pos + 1 = (avioW8 s v).pos := rfl
  rw [e, avioW8_read]

theorem avioWl32_pos (s : Avio) (v : Nat) : (avioWl32 s v).pos = s.pos + 4 := rfl

theorem avioWl32_keep (s : Avio) (v i : Nat) (h1 : i ≠ s.pos) (h2 : i ≠ s.pos + 1)
    (h3 : i ≠ s.pos + 2) (h4 : i ≠ s.pos + 3) :
    (avioWl32 s v).data i = s.data i := by
  rw [avioWl32,
    avioWl16_keep _ _ _ (by rw [avioWl16_pos]; omega) (by rw [avioWl16_pos]; omega),
    avioWl16_keep _ _ _ h1 h2]

theorem avioWl32_read0 (s : Avio) (v : Nat) : (avioWl32 s v).data s.pos = v % 256 := by
  rw [avioWl32,
    avioWl16_keep _ _ _ (by rw [avioWl16_pos]; omega) (by rw [avioWl16_pos]; omega),
    avioWl16_read0]

theorem avioWl32_read1 (s : Avio) (v : Nat) :
    (avioWl32 s v).data (s.pos + 1) = (v >>> 8) % 256 := by
  rw [avioWl32,
    avioWl16_keep _ _ _ (by rw [avioWl16_pos]; omega) (by rw [avioWl16_pos]; omega),
    avioWl16_read1]

theorem avioWl32_read2 (s : Avio) (v : Nat) :
    (avioWl32 s v).data (s.pos + 2) = (v >>> 16) % 256 := by
  rw [avioWl32]
  have e : s.pos + 2 = (avioWl16 s v).pos := by rw [avioWl16_pos]
  rw [e, avioWl16_read0]

theorem avioWl32_read3 (s : Avio) (v : Nat) :
    (avioWl32 s v).data (s.pos + 3) = ((v >>> 16) >>> 8) % 256 := by
  rw [avioWl32]
  have e : s.pos + 3 = (avioWl16 s v).pos + 1 := by rw [avioWl16_pos]
  rw [e, avioWl16_read1]

theorem writeBlockTable_keep : ∀ (t : List (Nat × Nat)) (s : Avio),
    s.pos ≤ (writeBlockTable t s).pos ∧
      ∀ i, i < s.pos → (writeBlockTable t s).data i = s.data i := by
  intro t
  induction t with
  | nil => intro s; exact ⟨Nat.le_refl _, fun i h => rfl⟩
  | cons e t ih =>
    intro s
    have hcons : writeBlockTable (e :: t) s =
        writeBlockTable t (avioWl32 (avioWl16 s 0) e.1) := rfl
    rw [hcons]
    obtain ⟨hp, hd⟩ := ih (avioWl32 (avioWl16 s 0) e.1)
    have hsp : (avioWl32 (avioWl16 s 0) e.1).pos = s.pos + 6 := by
      rw [avioWl32_pos, avioWl16_pos]
    refine ⟨by omega, ?_⟩
    intro i hi
    rw [hd i (by omega),
      avioWl32_keep _ _ _ (by rw [avioWl16_pos]; omega) (by rw [avioWl16_pos]; omega)
        (by rw [avioWl16_pos]; omega) (by rw [avioWl16_pos]; omega),
      avioWl16_keep _ _ _ (by omega) (by omega)]

theorem writeFrameRecord_pos (c : MuxCtx) (s : Avio) (e : Nat × Nat) :
    (writeFrameRecord c s e).pos = s.pos + 32 := by
  simp only [writeFrameRecord, avioWl32_pos, avioWl16_pos, avioW8_pos]

theorem writeFrameRecord_keep (c : MuxCtx) (s : Avio) (e : Nat × Nat) (i : Nat)
    (h : i < s.pos) : (writeFrameRecord c s e).data i = s.data i := by
  simp only [writeFrameRecord]
  rw [avioWl32_keep, avioWl32_keep, avioW8_keep, avioW8_keep, avioWl32_keep,
      avioW8_keep, avioW8_keep, avioW8_keep, avioW8_keep, avioWl16_keep,
      avioWl16_keep, avioWl16_keep, avioWl16_keep, avioWl32_keep, avioW8_keep,
      avioW8_keep] <;>
    first
    | (simp only [avioW8_pos, avioWl16_pos, avioWl32_pos]; omega)
    | omega

theorem writeFrameTable_keep (c : MuxCtx) : ∀ (t : List (Nat × Nat)) (s : Avio),
    s.pos ≤ (writeFrameTable c t s).pos ∧
      ∀ i, i < s.pos → (writeFrameTable c t s).data i = s.data i := by
  intro t
  induction t with
  | nil => intro s; exact ⟨Nat.le_refl _, fun i h => rfl⟩
  | cons e t ih =>
    intro s
    have hcons : writeFrameTable c (e :: t) s =
        writeFrameTable c t (writeFrameRecord c s e) := rfl
    rw [hcons]
    obtain ⟨hp, hd⟩ := ih (writeFrameRecord c s e)
    have hrp := writeFrameRecord_pos c s e
    refine ⟨by omega, ?_⟩
    intro i hi
    rw [hd i (by omega), writeFrameRecord_keep c s e i hi]

theorem avioSeek_pos (s : Avio) (p : Nat) : (avioSeek s p).pos = p := rfl

theorem avioSeek_data (s : Avio) (p i : Nat) : (avioSeek s p).data i = s.data i := rfl

/-- C9: after the trailer runs on a stream positioned past the 816
header bytes, bytes 6-7 hold the video frame count little-endian,
bytes 812-815 hold the trailer start offset (where the block table
begins) little-endian, and every other header byte is unchanged. -/
theorem vmd_write_trailer_header (c : MuxCtx) (s : Avio) (h : 816 ≤ s.pos) :
    ((vmdWriteTrailer c s).data 6 = c.frameTable.length % 256 ∧
      (vmdWriteTrailer c s).data 7 = (c.frameTable.length >>> 8) % 256) ∧
    ((vmdWriteTrailer c s).data 812 = s.pos % 256 ∧
      (vmdWriteTrailer c s).data 813 = (s.pos >>> 8) % 256 ∧
      (vmdWriteTrailer c s).data 814 = (s.pos >>> 16) % 256 ∧
      (vmdWriteTrailer c s).data 815 = (s.pos >>> 24) % 256) ∧
    (∀ i, i < 816 → i ≠ 6 → i ≠ 7 → (i < 812 ∨ 815 < i) →
      (vmdWriteTrailer c s).data i = s.data i) := by
  obtain ⟨hp1, hd1⟩ := writeBlockTable_keep c.frameTable s
  obtain ⟨hp2, hd2⟩ := writeFrameTable_keep c c.frameTable (writeBlockTable c.frameTable s)
  simp only [vmdWriteTrailer]
  set s2 := writeFrameTable c c.frameTable (writeBlockTable c.frameTable s) with hs2def
  set s3 := avioWl16 (avioSeek s2 6) c.frameTable.length with hs3def
  refine ⟨⟨?_, ?_⟩, ⟨?_, ?_, ?_, ?_⟩, ?_⟩
  · rw [avioWl32_keep _ _ _ (by rw [avioSeek_pos]; omega) (by rw [avioSeek_pos]; omega)
        (by rw [avioSeek_pos]; omega) (by rw [avioSeek_pos]; omega), avioSeek_data, hs3def]
    exact avioWl16_read0 (avioSeek s2 6) c.frameTable.length
  · rw [avioWl32_keep _ _ _ (by rw [avioSeek_pos]; omega) (by rw [avioSeek_pos]; omega)
        (by rw [avioSeek_pos]; omega) (by rw [avioSeek_pos]; omega), avioSeek_data, hs3def]
    exact avioWl16_read1 (avioSeek s2 6) c.frameTable.length
  · exact avioWl32_read0 (avioSeek s3 812) s.pos
  · exact avioWl32_read1 (avioSeek s3 812) s.pos
  · exact avioWl32_read2 (avioSeek s3 812) s.pos
  · have e2 : s.pos >>> 24 = (s.pos >>> 16) >>> 8 := by
      rw [← Nat.shiftRight_add]
    rw [e2]
    exact avioWl32_read3 (avioSeek s3 812) s.pos
  · intro i hi h6 h7 hrange
    rw [avioWl32_keep _ _ _ (by rw [avioSeek_pos]; omega) (by rw [avioSeek_pos]; omega)
        (by rw [avioSeek_pos]; omega) (by rw [avioSeek_pos]; omega), avioSeek_data, hs3def,
      avioWl16_keep _ _ _ (by rw [avioSeek_pos]; omega) (by rw [avioSeek_pos]; omega),
      avioSeek_data, hs2def]
    rw [hd2 i (by omega), hd1 i (by omega)]

/-- C9 witness: an empty frame table at trailer offset 816. -/
theorem vmd_write_trailer_header_witness :
    816 ≤ c9avio.pos ∧
      ((vmdWriteTrailer c9mux c9avio).data 6 = c9mux.frameTable.length % 256 ∧
        (vmdWriteTrailer c9mux c9avio).data 812 = c9avio.pos % 256) :=
  ⟨by decide, (vmd_write_trailer_header c9mux c9avio (by decide)).1.1,
    ((vmd_write_trailer_header c9mux c9avio (by decide)).2.1).1⟩

end VmdSpec
